import Mathlib

/-!
Verification of the reserved-word switch generator
(`js/src/frontend/GenerateReservedWords.py`).

The Python script builds a decision procedure that recognises, for a fixed
corpus of `(index, word)` pairs, whether a candidate string equals one of the
corpus words.  We embed the generator shallowly:

* words are `List Char`; a pair `(index, word)` is an `RWord`;
* the mutable `opt` dictionary becomes the `Opt` structure (thresholds) plus an
  explicit indentation argument; `opt["output"].write` becomes building a
  `List String` of emitted lines;
* Python `assert` failures and `IndexError` become `none` (`Option` results);
* alongside the exact emitted lines, the generator also returns a `Code` value,
  an AST mirroring the emitted text one construct per emitted branch, so that
  the behaviour of the emitted decision procedure can be stated and proved
  (`run` gives the semantics of the `JSRW_*` primitives).

Python's `repr` of a one-character string of a printable ASCII character other
than a quote or backslash is that character between single quotes; corpus words
are lowercase ASCII letters, so `pyRepr` models `repr` on the whole domain used
by the generator.
-/

/-- `(index, word)` pair as produced by the external reserved-word reader. -/
abbrev RWord := Nat × List Char

/-- `word[column]` (total model; all uses by the generator are in range for
the corpora the claims quantify over). -/
def charAt (w : List Char) (i : Nat) : Char := w.getD i '?'

/-- `"    " * indent_level`. -/
def indentStr : Nat → String
  | 0 => ""
  | n + 1 => "    " ++ indentStr n

/-- `line(opt, s)`: one emitted line, indentation and trailing newline included. -/
def line (indent : Nat) (s : String) : String := indentStr indent ++ s ++ "\n"

/-- Python `repr` of a one-character string, on the printable-ASCII domain. -/
def pyRepr (c : Char) : String := "\x27" ++ String.mk [c] ++ "\x27"

/-- Thresholds of the `opt` dictionary set up in `main`. -/
structure Opt where
  use_if_threshold : Nat
  char_tail_test_threshold : Nat
  deriving DecidableEq

/-- The `opt` dictionary built by `main`: `use_if_threshold = 3`,
`char_tail_test_threshold = 4`. -/
def mainOpt : Opt := ⟨3, 4⟩

/-- `span_and_count_at(reserved_word_list, column)`: the sorted set of distinct
character codes at `column`, returning `(chars[-1] - chars[0] + 1, len(chars))`.
(The Python asserts the list nonempty; on `[]` we return `(0, 0)`.) -/
def span_and_count_at (reserved_word_list : List RWord) (column : Nat) : Nat × Nat :=
  match List.insertionSort (· ≤ ·)
    ((reserved_word_list.map (fun x => (charAt x.2 column).toNat)).dedup) with
  | [] => (0, 0)
  | c0 :: rest => ((c0 :: rest).getLastD 0 - c0 + 1, (c0 :: rest).length)

/-- The scanning loop of `optimal_switch_column`: `fuel` iterations remain,
`idx` is the current loop index, the four accumulators mirror `min_count`,
`min_span`, `min_count_index`, `min_span_index`.  After the loop, the result is
`(min_count_index, True)` when `min_count <= use_if_threshold`, otherwise
`(min_span_index, False)`.  A column of span 1 returns `(1, True)` at once
(so the constant `1` of the Python source, not the loop index). -/
def oscAux (opt : Opt) (reserved_word_list : List RWord) (columns : List Nat) :
    Nat → Nat → Nat → Nat → Nat → Nat → Nat × Bool
  | 0, _, min_count, _, min_count_index, min_span_index =>
      if min_count ≤ opt.use_if_threshold then (min_count_index, true)
      else (min_span_index, false)
  | fuel + 1, idx, min_count, min_span, min_count_index, min_span_index =>
      let sc := span_and_count_at reserved_word_list (columns.getD idx 0)
      if sc.1 = 1 then (1, true)
      else
        let ms := if idx = 0 ∨ sc.1 < min_span then sc.1 else min_span
        let msi := if idx = 0 ∨ sc.1 < min_span then idx else min_span_index
        let mc := if idx = 0 ∨ sc.2 < min_count then sc.2 else min_count
        let mci := if idx = 0 ∨ sc.2 < min_count then idx else min_count_index
        oscAux opt reserved_word_list columns fuel (idx + 1) mc ms mci msi

/-- `optimal_switch_column(opt, reserved_word_list, columns, unprocessed_columns)`. -/
def optimal_switch_column (opt : Opt) (reserved_word_list : List RWord)
    (columns : List Nat) (unprocessed_columns : Nat) : Nat × Bool :=
  oscAux opt reserved_word_list columns unprocessed_columns 0 0 0 0 0

/-- `split_list_per_column`: group by the character at `column` (groups keep the
input order of the list) and sort the groups by character, as
`sorted(column_dict.items())` does. -/
def split_list_per_column (reserved_word_list : List RWord) (column : Nat) :
    List (Char × List RWord) :=
  (List.insertionSort (· ≤ ·)
      ((reserved_word_list.map (fun x => charAt x.2 column)).dedup)).map
    (fun c => (c, reserved_word_list.filter (fun x => charAt x.2 column == c)))

/-- `split_list_per_length`: group by `len(word)` (groups keep the input order)
and sort the groups by length. -/
def split_list_per_length (reserved_word_list : List RWord) :
    List (Nat × List RWord) :=
  (List.insertionSort (· ≤ ·)
      ((reserved_word_list.map (fun x => x.2.length)).dedup)).map
    (fun n => (n, reserved_word_list.filter (fun x => x.2.length == n)))

/-- AST of the emitted decision procedure, one constructor per emitted
construct.  `caseChar`/`caseLen` carry the dispatch mode (`true` = if-chain,
`false` = switch case); `rest` is the next sibling branch, ending in the
trailing `noMatch` each block emits. -/
inductive Code where
  | gotMatch (index : Nat)
  | testGuess (index : Nat)
  | noMatch
  | ifConds (conds : List (Nat × Char)) (body : Code) (rest : Code)
  | caseChar (use_if : Bool) (column : Nat) (ch : Char) (body : Code) (rest : Code)
  | caseLen (use_if : Bool) (len : Nat) (body : Code) (rest : Code)
  deriving DecidableEq

/-- Result of running the emitted procedure on a candidate string. -/
inductive Outcome where
  | gotMatch (index : Nat)
  | testGuess (index : Nat)
  | noMatch
  | fellThrough
  deriving DecidableEq

/-- Semantics of the emitted procedure on candidate `w`:
`JSRW_AT(i)` is `charAt w i`, `JSRW_LENGTH()` is `w.length`, and the
`JSRW_GOT_MATCH` / `JSRW_TEST_GUESS` / `JSRW_NO_MATCH` macros terminate the
procedure with the corresponding outcome. -/
def run (w : List Char) : Code → Outcome
  | .gotMatch i => .gotMatch i
  | .testGuess i => .testGuess i
  | .noMatch => .noMatch
  | .ifConds conds body rest =>
      if conds.all (fun p => charAt w p.1 == p.2) then run w body else run w rest
  | .caseChar _ col ch body rest =>
      if charAt w col == ch then run w body else run w rest
  | .caseLen _ n body rest =>
      if w.length == n then run w body else run w rest

/-- The per-character loop of `generate_letter_switch`: emits one `if` branch
(or `case` label) per group, `recur` being the recursive call into the group. -/
def genLSGroups (recur : List RWord → Option (List String × Code)) (use_if : Bool)
    (optimal_column : Nat) (indent : Nat) :
    List (Char × List RWord) → Option (List String × Code)
  | [] => some ([], .noMatch)
  | (ch, sub) :: rest => do
      let b ← recur sub
      let r ← genLSGroups recur use_if optimal_column indent rest
      if use_if then
        pure (line indent ("if (JSRW_AT(" ++ toString optimal_column ++ ") == "
                ++ pyRepr ch ++ ") \x7b") :: (b.1 ++ [line indent "\x7d"] ++ r.1),
              .caseChar true optimal_column ch b.2 r.2)
      else
        pure (line indent ("  case " ++ pyRepr ch ++ ":") :: (b.1 ++ r.1),
              .caseChar false optimal_column ch b.2 r.2)

/-- `generate_letter_switch(opt, unprocessed_columns, reserved_word_list,
columns)`; the first `Nat` is `unprocessed_columns`, the second the indentation
level.  `columns = []` models the `None`/falsy default (`range(0,
unprocessed_columns)`).  `none` models an `assert` failure or `IndexError`. -/
def generate_letter_switch (opt : Opt) :
    Nat → Nat → List RWord → List Nat → Option (List String × Code)
  | 0 => fun indent l _ =>
      match l with
      | [] => none
      | [x] =>
          some ([line indent ("JSRW_GOT_MATCH(" ++ toString x.1 ++ ") /* "
                  ++ String.mk x.2 ++ " */")], .gotMatch x.1)
      | _ :: _ :: _ => none
  | u + 1 => fun indent l columns0 =>
      let unprocessed := u + 1
      let columns := if columns0.isEmpty then List.range unprocessed else columns0
      match l with
      | [] => none
      | [x] =>
          if opt.char_tail_test_threshold < unprocessed then
            some ([line indent ("JSRW_TEST_GUESS(" ++ toString x.1 ++ ") /* "
                    ++ String.mk x.2 ++ " */")], .testGuess x.1)
          else
            let conds := (columns.take unprocessed).map (fun c => (c, charAt x.2 c))
            let condStr := String.intercalate " && "
              (conds.map (fun p => "JSRW_AT(" ++ toString p.1 ++ ")==" ++ pyRepr p.2))
            some ([line indent ("if (" ++ condStr ++ ") \x7b"),
                   line (indent + 1) ("JSRW_GOT_MATCH(" ++ toString x.1 ++ ") /* "
                     ++ String.mk x.2 ++ " */"),
                   line indent "\x7d",
                   line indent "JSRW_NO_MATCH()"],
                  .ifConds conds (.gotMatch x.1) .noMatch)
      | _ :: _ :: _ => do
          let osc := optimal_switch_column opt l columns unprocessed
          let optimal_column ← columns[osc.1]?
          let lastCol ← columns[unprocessed - 1]?
          let columns' := columns.set osc.1 lastCol
          let groups := split_list_per_column l optimal_column
          let g ← genLSGroups
            (fun sub => generate_letter_switch opt u (indent + 1) sub columns')
            osc.2 optimal_column indent groups
          if osc.2 then
            pure (g.1 ++ [line indent "JSRW_NO_MATCH()"], g.2)
          else
            pure (line indent ("switch (JSRW_AT(" ++ toString optimal_column
                    ++ ")) \x7b") :: (g.1 ++ [line indent "\x7d",
                    line indent "JSRW_NO_MATCH()"]),
                  g.2)

/-- The per-length loop of `generate_switch`. -/
def genSwitchGroups (opt : Opt) (use_if : Bool) (indent : Nat) :
    List (Nat × List RWord) → Option (List String × Code)
  | [] => some ([], .noMatch)
  | (n, sub) :: rest => do
      let b ← generate_letter_switch opt n (indent + 1) sub []
      let r ← genSwitchGroups opt use_if indent rest
      if use_if then
        pure (line indent ("if (JSRW_LENGTH() == " ++ toString n ++ ") \x7b")
                :: (b.1 ++ [line indent "\x7d"] ++ r.1),
              .caseLen true n b.2 r.2)
      else
        pure (line indent ("  case " ++ toString n ++ ":") :: (b.1 ++ r.1),
              .caseLen false n b.2 r.2)

/-- `generate_switch(opt, reserved_word_list)`.  The empty list fails the
leading `assert` before anything is written, hence `none` with no lines. -/
def generate_switch (opt : Opt) (indent : Nat) (reserved_word_list : List RWord) :
    Option (List String × Code) :=
  match reserved_word_list with
  | [] => none
  | _ :: _ =>
    let header := line indent "/*" ::
      line indent (" * Generating switch for the list of "
        ++ toString reserved_word_list.length ++ " entries:") ::
      ((reserved_word_list.map (fun x => line indent (" * " ++ String.mk x.2)))
        ++ [line indent " */"])
    let list_per_length := split_list_per_length reserved_word_list
    let use_if := decide (list_per_length.length < opt.use_if_threshold)
    (genSwitchGroups opt use_if indent list_per_length).map (fun g =>
      (header ++ (if use_if then g.1 ++ [line indent "JSRW_NO_MATCH()"]
                  else line indent "switch (JSRW_LENGTH()) \x7b"
                    :: (g.1 ++ [line indent "\x7d", line indent "JSRW_NO_MATCH()"])),
       g.2))

/-- The whole generator as `main` invokes it: thresholds `(3, 4)` and initial
indentation level `1`. -/
def genMain (reserved_word_list : List RWord) : Option (List String × Code) :=
  generate_switch mainOpt 1 reserved_word_list

/-- Does the emitted code contain a `JSRW_TEST_GUESS` leaf? -/
def hasGuess : Code → Bool
  | .gotMatch _ => false
  | .testGuess _ => true
  | .noMatch => false
  | .ifConds _ b r => hasGuess b || hasGuess r
  | .caseChar _ _ _ b r => hasGuess b || hasGuess r
  | .caseLen _ _ b r => hasGuess b || hasGuess r

/-- `colsOkB banned code`: along every path of `code`, no column of `banned` is
tested again, every character-dispatch column is added to the banned set of its
descendants, and the columns of a near-leaf conjunction are pairwise distinct
and disjoint from the banned set.  This is the "no column tested twice on any
root-to-leaf path" invariant. -/
def colsOkB (banned : List Nat) : Code → Bool
  | .gotMatch _ => true
  | .testGuess _ => true
  | .noMatch => true
  | .ifConds conds b r =>
      decide ((conds.map Prod.fst).Nodup)
        && conds.all (fun p => !banned.contains p.1)
        && colsOkB banned b && colsOkB banned r
  | .caseChar _ col _ b r =>
      !banned.contains col && colsOkB (col :: banned) b && colsOkB banned r
  | .caseLen _ _ b r => colsOkB banned b && colsOkB banned r

/-- Lengths enumerated by the top-level length dispatch, in emission order. -/
def lenKeys : Code → List Nat
  | .caseLen _ n _ r => n :: lenKeys r
  | _ => []

/-- Dispatch modes of the top-level length dispatch, in emission order. -/
def lenModes : Code → List Bool
  | .caseLen m _ _ r => m :: lenModes r
  | _ => []

/-- A valid corpus: non-empty, with pairwise-distinct words. -/
def ValidCorpus (l : List RWord) : Prop :=
  l ≠ [] ∧ (l.map Prod.snd).Nodup

instance : DecidablePred ValidCorpus := fun _ => by
  unfold ValidCorpus; infer_instance

/-! ### Basic helper lemmas -/

theorem charAt_toNat_inj {a b : Char} (h : a.toNat = b.toNat) : a = b := by
  have := congrArg Char.ofNat h
  rwa [Char.ofNat_toNat, Char.ofNat_toNat] at this

/-- Every member of a `≤`-sorted list of naturals is at most its last element. -/
theorem mem_le_getLastD : ∀ {l : List Nat} (d : Nat), l.Sorted (· ≤ ·) →
    ∀ a ∈ l, a ≤ l.getLastD d
  | [], _, _, _, ha => absurd ha (List.not_mem_nil _)
  | c :: t, d, hs, a, ha => by
    rw [List.getLastD_cons]
    rcases List.mem_cons.1 ha with h | h
    · subst h
      rcases t with _ | ⟨c1, t1⟩
      · simp [List.getLastD_nil]
      · have hmem := List.getLastD_mem_cons (c1 :: t1) a
        rcases List.mem_cons.1 hmem with h2 | h2
        · omega
        · exact (List.sorted_cons.1 hs).1 _ h2
    · exact mem_le_getLastD c ((List.sorted_cons.1 hs).2) a h

/-- Every member of a `≤`-sorted list with head `c` is at least `c`. -/
theorem head_le_mem {c : Nat} {t : List Nat} (hs : (c :: t).Sorted (· ≤ ·)) :
    ∀ a ∈ c :: t, c ≤ a := by
  intro a ha
  rcases List.mem_cons.1 ha with h | h
  · omega
  · exact (List.sorted_cons.1 hs).1 _ h

/-- If the span at a column is 1, all candidates carry the same character there. -/
theorem span_one_agree {l : List RWord} {col : Nat}
    (h : (span_and_count_at l col).1 = 1) :
    ∀ x ∈ l, ∀ y ∈ l, charAt x.2 col = charAt y.2 col := by
  intro x hx y hy
  have hperm := List.perm_insertionSort (α := Nat) (· ≤ ·)
    ((l.map (fun z => (charAt z.2 col).toNat)).dedup)
  have hsorted := List.sorted_insertionSort (α := Nat) (· ≤ ·)
    ((l.map (fun z => (charAt z.2 col).toNat)).dedup)
  have hxmem : (charAt x.2 col).toNat ∈ List.insertionSort (· ≤ ·)
      ((l.map (fun z => (charAt z.2 col).toNat)).dedup) := by
    rw [hperm.mem_iff, List.mem_dedup]
    exact List.mem_map.2 ⟨x, hx, rfl⟩
  have hymem : (charAt y.2 col).toNat ∈ List.insertionSort (· ≤ ·)
      ((l.map (fun z => (charAt z.2 col).toNat)).dedup) := by
    rw [hperm.mem_iff, List.mem_dedup]
    exact List.mem_map.2 ⟨y, hy, rfl⟩
  have hSne : List.insertionSort (· ≤ ·)
      ((l.map (fun z => (charAt z.2 col).toNat)).dedup) ≠ [] := by
    intro h0
    rw [h0] at hxmem
    exact absurd hxmem (List.not_mem_nil _)
  obtain ⟨c0, rest, hS⟩ := List.exists_cons_of_ne_nil hSne
  rw [hS] at hxmem hymem hsorted
  have hspan : span_and_count_at l col
      = ((c0 :: rest).getLastD 0 - c0 + 1, (c0 :: rest).length) := by
    unfold span_and_count_at
    rw [hS]
  rw [hspan] at h
  have hlast : (c0 :: rest).getLastD 0 - c0 + 1 = 1 := h
  have hx1 : c0 ≤ (charAt x.2 col).toNat := head_le_mem hsorted _ hxmem
  have hy1 : c0 ≤ (charAt y.2 col).toNat := head_le_mem hsorted _ hymem
  have hx2 : (charAt x.2 col).toNat ≤ (c0 :: rest).getLastD 0 :=
    mem_le_getLastD 0 hsorted _ hxmem
  have hy2 : (charAt y.2 col).toNat ≤ (c0 :: rest).getLastD 0 :=
    mem_le_getLastD 0 hsorted _ hymem
  exact charAt_toNat_inj (by omega)

/-- Contrapositive form: two candidates differing at a column force span ≠ 1. -/
theorem span_ne_one {l : List RWord} {col : Nat} {x y : RWord}
    (hx : x ∈ l) (hy : y ∈ l) (hne : charAt x.2 col ≠ charAt y.2 col) :
    (span_and_count_at l col).1 ≠ 1 := fun h =>
  hne (span_one_agree h x hx y hy)

/-- Two distinct words of the same length differ at some position below it. -/
theorem words_diff_at {w1 w2 : List Char} {L : Nat} (h1 : w1.length = L)
    (h2 : w2.length = L) (hne : w1 ≠ w2) : ∃ p < L, charAt w1 p ≠ charAt w2 p := by
  by_contra hall
  push_neg at hall
  apply hne
  apply List.ext_getElem (by omega)
  intro i hi1 hi2
  have := hall i (by omega)
  rwa [charAt, charAt, List.getD_eq_getElem _ _ hi1, List.getD_eq_getElem _ _ hi2] at this

/-! ### Lemmas about the `optimal_switch_column` scanning loop -/

/-- In the absence of an early exit bound, the loop only ever returns `1` or an
accumulator index: all stay below `N` when `1 < N` and the indices start below
`N`. -/
theorem oscAux_lt (opt : Opt) (l : List RWord) (cols : List Nat) :
    ∀ (fuel idx mc ms mci msi N : Nat), 1 < N → mci < N → msi < N →
      idx + fuel ≤ N → (oscAux opt l cols fuel idx mc ms mci msi).1 < N
  | 0, idx, mc, ms, mci, msi, N => by
    intro h1 hc hs _
    simp only [oscAux]
    split <;> simpa
  | fuel + 1, idx, mc, ms, mci, msi, N => by
    intro h1 hc hs hif
    simp only [oscAux]
    split
    · simpa
    · split <;> split <;>
        exact oscAux_lt opt l cols fuel _ _ _ _ _ N h1 (by omega) (by omega) (by omega)

/-- The selected scan index is below `unprocessed_columns` whenever the
candidate list holds two words that differ inside the scanned window. -/
theorem osc_lt (opt : Opt) {l : List RWord} {cols : List Nat} {u : Nat}
    {x y : RWord} (hx : x ∈ l) (hy : y ∈ l)
    (hdiff : ∃ p ∈ cols.take u, charAt x.2 p ≠ charAt y.2 p) (hu : 0 < u) :
    (optimal_switch_column opt l cols u).1 < u := by
  match u, hu with
  | 1, _ =>
    obtain ⟨p, hp, hpne⟩ := hdiff
    match cols, hp with
    | c :: t, hp =>
      have hpc : p = c := by simpa using hp
      rw [hpc] at hpne
      have hspan : (span_and_count_at l c).1 ≠ 1 := span_ne_one hx hy hpne
      have hgetd : (c :: t).getD 0 0 = c := rfl
      simp only [optimal_switch_column, oscAux, hgetd]
      rw [if_neg hspan]
      split_ifs <;> simp
  | u + 2, _ =>
    exact oscAux_lt opt l cols (u + 2) 0 0 0 0 0 (u + 2) (by omega) (by omega)
      (by omega) (by omega)

/-! ### Claim C10: the selected scan index stays inside the unprocessed window -/

/-- C10: for a list of at least two pairwise-distinct words of a common length
`L`, whenever the words agree at every column position outside
`columns[0..unprocessed_columns-1]` and `unprocessed_columns ≥ 1`, the scan
index returned by `optimal_switch_column` is strictly below
`unprocessed_columns`, so the caller's follow-up access
`columns[optimal_column_index]` stays inside the unprocessed window. -/
theorem optimal_switch_column_in_window (opt : Opt) {l : List RWord}
    {cols : List Nat} {u L : Nat}
    (hlen2 : 2 ≤ l.length) (hnd : (l.map Prod.snd).Nodup)
    (hL : ∀ x ∈ l, x.2.length = L)
    (hagree : ∀ p < L, p ∉ cols.take u →
      ∀ x ∈ l, ∀ y ∈ l, charAt x.2 p = charAt y.2 p)
    (hu : 0 < u) :
    (optimal_switch_column opt l cols u).1 < u := by
  match l, hlen2 with
  | a :: b :: t, _ =>
    have hab : a.2 ≠ b.2 := by
      have h1 := (List.nodup_cons.1 hnd).1
      intro h
      exact h1 (by rw [h]; exact List.mem_cons_self _ _)
    obtain ⟨p, hpL, hpne⟩ := words_diff_at (hL a (List.mem_cons_self _ _))
      (hL b (List.mem_cons.2 (Or.inr (List.mem_cons_self _ _)))) hab
    have hpwin : p ∈ cols.take u := by
      by_contra hout
      exact hpne (hagree p hpL hout a (List.mem_cons_self _ _) b
        (List.mem_cons.2 (Or.inr (List.mem_cons_self _ _))))
    exact osc_lt opt (List.mem_cons_self _ _)
      (List.mem_cons.2 (Or.inr (List.mem_cons_self _ _))) ⟨p, hpwin, hpne⟩ hu

/-- Witness for C10 at the concrete input `[(0, "ab"), (1, "ac")]`,
`columns = [0, 1]`, `unprocessed_columns = 2`. -/
theorem optimal_switch_column_in_window_witness :
    (optimal_switch_column mainOpt [(0, ['a', 'b']), (1, ['a', 'c'])] [0, 1] 2).1 < 2 :=
  optimal_switch_column_in_window mainOpt (L := 2) (by decide) (by decide)
    (by decide) (by decide) (by decide)

/-! ### Claim C2: the span-1 early exit returns the constant 1 -/

/-- C2 (divergence between spec and code): on `[(0, "ab"), (1, "ac")]` with
`columns = [0, 1]` and `unprocessed_columns = 2`, the first scanned column
(scan index 0, column 0) has span 1 — both words carry `'a'` there — yet
`optimal_switch_column` returns scan index `1`, not scan index `0`: the early
exit is `return 1, True` with a hard-coded `1` in place of the loop index, so
the generator then dispatches on `columns[1]` instead of the shared column. -/
theorem optimal_switch_column_span1_hardcoded :
    span_and_count_at [(0, ['a', 'b']), (1, ['a', 'c'])] 0 = (1, 1) ∧
    optimal_switch_column mainOpt [(0, ['a', 'b']), (1, ['a', 'c'])] [0, 1] 2
      = (1, true) := by
  exact ⟨by decide, by decide⟩

/-! ### Claim C9: the empty corpus aborts before writing anything -/

/-- C9: called on an empty reserved-word list, `generate_switch` fails its
leading assertion before any `line(...)` call: the model returns `none`,
carrying no emitted lines at all. -/
theorem generate_switch_empty (opt : Opt) (indent : Nat) :
    generate_switch opt indent [] = none := rfl

/-! ### Claim C7: minimal-count / minimal-span selection when no span is 1 -/

/-- Distinct-character count scanned at loop index `i`. -/
def countAt (l : List RWord) (cols : List Nat) (i : Nat) : Nat :=
  (span_and_count_at l (cols.getD i 0)).2

/-- Span scanned at loop index `i`. -/
def spanAt (l : List RWord) (cols : List Nat) (i : Nat) : Nat :=
  (span_and_count_at l (cols.getD i 0)).1

/-- Joint result specification for `optimal_switch_column` in the absence of a
span-1 column: if some scanned count is at most the threshold the result is the
first scan index of minimal count in if-chain mode, otherwise the first scan
index of minimal span in switch mode. -/
def OscSpec (opt : Opt) (l : List RWord) (cols : List Nat) (u : Nat)
    (r : Nat × Bool) : Prop :=
  ((∃ i, i < u ∧ countAt l cols i ≤ opt.use_if_threshold) →
      r.2 = true ∧ r.1 < u ∧ (∀ i < u, countAt l cols r.1 ≤ countAt l cols i) ∧
      (∀ i < r.1, countAt l cols r.1 < countAt l cols i)) ∧
  ((∀ i, i < u → opt.use_if_threshold < countAt l cols i) →
      r.2 = false ∧ r.1 < u ∧ (∀ i < u, spanAt l cols r.1 ≤ spanAt l cols i) ∧
      (∀ i < r.1, spanAt l cols r.1 < spanAt l cols i))

/-- Invariant-preservation along the scanning loop. -/
theorem oscAux_minspec (opt : Opt) (l : List RWord) (cols : List Nat) (u : Nat)
    (hs1 : ∀ i < u, spanAt l cols i ≠ 1) :
    ∀ (fuel idx mc ms mci msi : Nat), idx + fuel = u → 1 ≤ idx →
      mci < idx → mc = countAt l cols mci → (∀ i < idx, mc ≤ countAt l cols i) →
      (∀ i < mci, mc < countAt l cols i) →
      msi < idx → ms = spanAt l cols msi → (∀ i < idx, ms ≤ spanAt l cols i) →
      (∀ i < msi, ms < spanAt l cols i) →
      OscSpec opt l cols u (oscAux opt l cols fuel idx mc ms mci msi)
  | 0, idx, mc, ms, mci, msi => by
    intro hfu hidx hc1 hc2 hc3 hc4 hs1' hs2 hs3 hs4
    have hidxu : idx = u := by omega
    subst hidxu
    simp only [oscAux]
    constructor
    · intro ⟨i, hi, hle⟩
      have hmc : mc ≤ opt.use_if_threshold := le_trans (hc3 i hi) hle
      rw [if_pos hmc]
      exact ⟨rfl, by omega, fun j hj => hc2 ▸ hc3 j hj, fun j hj => hc2 ▸ hc4 j hj⟩
    · intro hall
      have hmc : ¬ mc ≤ opt.use_if_threshold := by
        have := hall mci hc1
        omega
      rw [if_neg hmc]
      exact ⟨rfl, by omega, fun j hj => hs2 ▸ hs3 j hj, fun j hj => hs2 ▸ hs4 j hj⟩
  | fuel + 1, idx, mc, ms, mci, msi => by
    intro hfu hidx hc1 hc2 hc3 hc4 hs1' hs2 hs3 hs4
    have hidxu : idx < u := by omega
    have hsp : (span_and_count_at l (cols.getD idx 0)).1 ≠ 1 := hs1 idx hidxu
    have hidx0 : ¬ (idx = 0) := by omega
    simp only [oscAux]
    rw [if_neg hsp]
    have hcondspan : (idx = 0 ∨ (span_and_count_at l (cols.getD idx 0)).1 < ms)
        ↔ spanAt l cols idx < ms := by
      unfold spanAt
      constructor
      · rintro (h | h)
        · exact absurd h hidx0
        · exact h
      · exact fun h => Or.inr h
    have hcondcount : (idx = 0 ∨ (span_and_count_at l (cols.getD idx 0)).2 < mc)
        ↔ countAt l cols idx < mc := by
      unfold countAt
      constructor
      · rintro (h | h)
        · exact absurd h hidx0
        · exact h
      · exact fun h => Or.inr h
    by_cases hspan : spanAt l cols idx < ms <;> by_cases hcount : countAt l cols idx < mc
    all_goals
      simp only [hcondspan, hcondcount, if_pos, if_neg, hspan, hcount, if_true, if_false]
    · exact oscAux_minspec opt l cols u hs1 fuel (idx + 1) _ _ _ _ (by omega) (by omega)
        (by omega) rfl
        (fun i hi => by
          rcases Nat.lt_or_ge i idx with h | h
          · exact le_of_lt (lt_of_lt_of_le hcount (hc3 i h))
          · have hii : i = idx := by omega
            subst hii
            exact le_rfl)
        (fun i hi => lt_of_lt_of_le hcount (hc3 i hi))
        (by omega) rfl
        (fun i hi => by
          rcases Nat.lt_or_ge i idx with h | h
          · exact le_of_lt (lt_of_lt_of_le hspan (hs3 i h))
          · have hii : i = idx := by omega
            subst hii
            exact le_rfl)
        (fun i hi => lt_of_lt_of_le hspan (hs3 i hi))
    · exact oscAux_minspec opt l cols u hs1 fuel (idx + 1) _ _ _ _ (by omega) (by omega)
        (by omega) hc2
        (fun i hi => by
          rcases Nat.lt_or_ge i idx with h | h
          · exact hc3 i h
          · have : i = idx := by omega
            subst this
            omega)
        hc4
        (by omega) rfl
        (fun i hi => by
          rcases Nat.lt_or_ge i idx with h | h
          · exact le_of_lt (lt_of_lt_of_le hspan (hs3 i h))
          · have hii : i = idx := by omega
            subst hii
            exact le_rfl)
        (fun i hi => lt_of_lt_of_le hspan (hs3 i hi))
    · exact oscAux_minspec opt l cols u hs1 fuel (idx + 1) _ _ _ _ (by omega) (by omega)
        (by omega) rfl
        (fun i hi => by
          rcases Nat.lt_or_ge i idx with h | h
          · exact le_of_lt (lt_of_lt_of_le hcount (hc3 i h))
          · have hii : i = idx := by omega
            subst hii
            exact le_rfl)
        (fun i hi => lt_of_lt_of_le hcount (hc3 i hi))
        (by omega) hs2
        (fun i hi => by
          rcases Nat.lt_or_ge i idx with h | h
          · exact hs3 i h
          · have : i = idx := by omega
            subst this
            omega)
        hs4
    · exact oscAux_minspec opt l cols u hs1 fuel (idx + 1) _ _ _ _ (by omega) (by omega)
        (by omega) hc2
        (fun i hi => by
          rcases Nat.lt_or_ge i idx with h | h
          · exact hc3 i h
          · have : i = idx := by omega
            subst this
            omega)
        hc4
        (by omega) hs2
        (fun i hi => by
          rcases Nat.lt_or_ge i idx with h | h
          · exact hs3 i h
          · have : i = idx := by omega
            subst this
            omega)
        hs4

/-- `optimal_switch_column` satisfies `OscSpec` when no scanned span is 1. -/
theorem osc_minspec (opt : Opt) (l : List RWord) (cols : List Nat) {u : Nat}
    (hu : 0 < u) (hs1 : ∀ i < u, spanAt l cols i ≠ 1) :
    OscSpec opt l cols u (optimal_switch_column opt l cols u) := by
  match u, hu with
  | u' + 1, _ =>
    have hs0 : (span_and_count_at l (cols.getD 0 0)).1 ≠ 1 := hs1 0 (by omega)
    unfold optimal_switch_column
    simp only [oscAux]
    rw [if_neg hs0]
    simp only [eq_self_iff_true, true_or, if_true]
    exact oscAux_minspec opt l cols (u' + 1) hs1 u' 1 _ _ _ _ (by omega) (by omega)
      (by omega) rfl
      (fun i hi => by
        have hii : i = 0 := by omega
        subst hii
        exact le_rfl)
      (fun i hi => absurd hi (by omega))
      (by omega) rfl
      (fun i hi => by
        have hii : i = 0 := by omega
        subst hii
        exact le_rfl)
      (fun i hi => absurd hi (by omega))

/-- C7: when no unprocessed column has span 1, `optimal_switch_column` returns,
in if-chain mode, the first scan index attaining the minimal distinct-character
count whenever that minimal count is at most the threshold 3, and otherwise, in
switch mode, the first scan index attaining the minimal span. -/
theorem optimal_switch_column_minimal (l : List RWord) (cols : List Nat)
    {u : Nat} (hu : 0 < u) (hs1 : ∀ i < u, spanAt l cols i ≠ 1) :
    ((∃ i, i < u ∧ countAt l cols i ≤ 3) →
        (optimal_switch_column mainOpt l cols u).2 = true ∧
        (optimal_switch_column mainOpt l cols u).1 < u ∧
        (∀ i < u, countAt l cols (optimal_switch_column mainOpt l cols u).1
          ≤ countAt l cols i) ∧
        (∀ i < (optimal_switch_column mainOpt l cols u).1,
          countAt l cols (optimal_switch_column mainOpt l cols u).1
            < countAt l cols i)) ∧
    ((∀ i, i < u → 3 < countAt l cols i) →
        (optimal_switch_column mainOpt l cols u).2 = false ∧
        (optimal_switch_column mainOpt l cols u).1 < u ∧
        (∀ i < u, spanAt l cols (optimal_switch_column mainOpt l cols u).1
          ≤ spanAt l cols i) ∧
        (∀ i < (optimal_switch_column mainOpt l cols u).1,
          spanAt l cols (optimal_switch_column mainOpt l cols u).1
            < spanAt l cols i)) :=
  osc_minspec mainOpt l cols hu hs1

/-- Witness for C7 at `[(0, "ab"), (1, "ba")]`, `columns = [0, 1]`,
`unprocessed_columns = 2`: both columns have span 2 and count 2, so the first
scan index 0 is selected in if-chain mode. -/
theorem optimal_switch_column_minimal_witness :
    (optimal_switch_column mainOpt [(0, ['a', 'b']), (1, ['b', 'a'])] [0, 1] 2).2
      = true ∧
    (optimal_switch_column mainOpt [(0, ['a', 'b']), (1, ['b', 'a'])] [0, 1] 2).1
      < 2 :=
  ⟨((optimal_switch_column_minimal [(0, ['a', 'b']), (1, ['b', 'a'])] [0, 1]
      (by decide) (by decide)).1 ⟨0, by decide, by decide⟩).1,
   ((optimal_switch_column_minimal [(0, ['a', 'b']), (1, ['b', 'a'])] [0, 1]
      (by decide) (by decide)).1 ⟨0, by decide, by decide⟩).2.1⟩

/-! ### The swap-removal of the selected column from the unprocessed window -/

section WindowFacts

variable {columns : List Nat} {u k : Nat}

/-- The old window decomposes as its first `u` entries plus `columns[u]`. -/
theorem window_decomp (hlen : u + 1 ≤ columns.length) :
    columns.take (u + 1) = columns.take u ++ [columns.getD u 0] := by
  rw [List.take_succ, List.getElem?_eq_getElem (by omega)]
  rw [List.getD_eq_getElem _ _ (by omega)]
  rfl

theorem window_take_len (hlen : u + 1 ≤ columns.length) :
    (columns.take u).length = u := by
  simp only [List.length_take]
  omega

/-- `columns[u]` does not occur among the first `u` window entries. -/
theorem window_last_not_mem (hlen : u + 1 ≤ columns.length)
    (hnd : (columns.take (u + 1)).Nodup) :
    columns.getD u 0 ∉ columns.take u := by
  rw [window_decomp hlen] at hnd
  intro hmem
  exact List.disjoint_of_nodup_append hnd hmem (by simp)

theorem window_prefix_nodup (hlen : u + 1 ≤ columns.length)
    (hnd : (columns.take (u + 1)).Nodup) : (columns.take u).Nodup := by
  rw [window_decomp hlen] at hnd
  exact (List.nodup_append.1 hnd).1

/-- The dispatched column belongs to the old window. -/
theorem win_col_mem (hk : k < u + 1) (hlen : u + 1 ≤ columns.length) :
    columns.getD k 0 ∈ columns.take (u + 1) := by
  have hkW : k < (columns.take (u + 1)).length := by
    simp only [List.length_take]
    omega
  have hcolW : (columns.take (u + 1))[k] = columns.getD k 0 := by
    rw [List.getElem_take]
    exact (List.getD_eq_getElem _ _ (by omega)).symm
  exact hcolW ▸ List.getElem_mem hkW

/-- After the swap, the new window is the old first-`u` prefix with entry `k`
overwritten by `columns[u]`. -/
theorem window_new_eq :
    (columns.set k (columns.getD u 0)).take u
      = (columns.take u).set k (columns.getD u 0) :=
  List.set_take

/-- Every entry of the new window belongs to the old window. -/
theorem win_new_subset (_hk : k < u + 1) (hlen : u + 1 ≤ columns.length) :
    ∀ p ∈ (columns.set k (columns.getD u 0)).take u, p ∈ columns.take (u + 1) := by
  intro p hp
  rw [window_new_eq] at hp
  rw [window_decomp hlen]
  rcases List.mem_or_eq_of_mem_set hp with h | h
  · exact List.mem_append_left _ h
  · exact List.mem_append_right _ (by simp [h])

/-- No entry of the new window equals the dispatched column. -/
theorem win_new_ne_col (hk : k < u + 1) (hlen : u + 1 ≤ columns.length)
    (hnd : (columns.take (u + 1)).Nodup) :
    ∀ p ∈ (columns.set k (columns.getD u 0)).take u, p ≠ columns.getD k 0 := by
  intro p hp
  have hT := window_prefix_nodup hlen hnd
  have hdT := window_last_not_mem hlen hnd
  have hTlen := window_take_len hlen
  rw [window_new_eq] at hp
  rcases Nat.lt_or_ge k u with hku | hku
  · -- k < u: the dispatched column is the k-th entry of the prefix
    have hkT : k < (columns.take u).length := by omega
    have hcolT : (columns.take u)[k] = columns.getD k 0 := by
      rw [List.getElem_take]
      exact (List.getD_eq_getElem _ _ (by omega)).symm
    obtain ⟨j, hj, hje⟩ := List.getElem_of_mem hp
    have hju : j < (columns.take u).length := by
      simpa using hj
    by_cases hjk : j = k
    · subst hjk
      rw [List.getElem_set_self] at hje
      subst hje
      intro hpe
      exact hdT (hpe ▸ hcolT ▸ List.getElem_mem hkT)
    · rw [List.getElem_set_ne (fun h => hjk h.symm)] at hje
      subst hje
      intro hpe
      rw [← hcolT] at hpe
      have hfin : (⟨j, hju⟩ : Fin (List.take u columns).length) = ⟨k, hkT⟩ :=
        List.nodup_iff_injective_getElem.1 hT hpe
      exact hjk (congrArg Fin.val hfin)
  · -- k = u: the set is out of range and the dispatched column is columns[u]
    have hku' : k = u := by omega
    subst hku'
    rw [List.set_eq_of_length_le (le_of_eq hTlen)] at hp
    intro hpe
    exact hdT (hpe ▸ hp)

/-- Every old-window entry other than the dispatched column survives into the
new window. -/
theorem win_old_mem_new (hk : k < u + 1) (hlen : u + 1 ≤ columns.length)
    (hnd : (columns.take (u + 1)).Nodup) :
    ∀ p ∈ columns.take (u + 1), p ≠ columns.getD k 0 →
      p ∈ (columns.set k (columns.getD u 0)).take u := by
  intro p hpW hpne
  have hT := window_prefix_nodup hlen hnd
  have hdT := window_last_not_mem hlen hnd
  have hTlen := window_take_len hlen
  rw [window_decomp hlen] at hpW
  rw [window_new_eq]
  rcases Nat.lt_or_ge k u with hku | hku
  · have hkT : k < (columns.take u).length := by omega
    have hcolT : (columns.take u)[k] = columns.getD k 0 := by
      rw [List.getElem_take]
      exact (List.getD_eq_getElem _ _ (by omega)).symm
    rcases List.mem_append.1 hpW with h | h
    · obtain ⟨j, hj, hje⟩ := List.getElem_of_mem h
      by_cases hjk : j = k
      · subst hjk
        rw [hcolT] at hje
        exact absurd hje.symm hpne
      · have hjs : j < ((columns.take u).set k (columns.getD u 0)).length := by
          simpa using hj
        have : ((columns.take u).set k (columns.getD u 0))[j] = p := by
          rw [List.getElem_set_ne (fun h2 => hjk h2.symm)]
          exact hje
        exact this ▸ List.getElem_mem hjs
    · have hpd : p = columns.getD u 0 := by simpa using h
      subst hpd
      have hks : k < ((columns.take u).set k (columns.getD u 0)).length := by
        simpa using hkT
      have heqk : ((columns.take u).set k (columns.getD u 0))[k] = columns.getD u 0 :=
        List.getElem_set_self hks
      have hmem := List.getElem_mem hks
      rwa [heqk] at hmem
  · have hku' : k = u := by omega
    subst hku'
    rw [List.set_eq_of_length_le (le_of_eq hTlen)]
    rcases List.mem_append.1 hpW with h | h
    · exact h
    · exact absurd (by simpa using h) hpne

/-- The new window again has pairwise-distinct entries. -/
theorem win_new_nodup (hk : k < u + 1) (hlen : u + 1 ≤ columns.length)
    (hnd : (columns.take (u + 1)).Nodup) :
    ((columns.set k (columns.getD u 0)).take u).Nodup := by
  have hT := window_prefix_nodup hlen hnd
  have hdT := window_last_not_mem hlen hnd
  have hTlen := window_take_len hlen
  rw [window_new_eq]
  rcases Nat.lt_or_ge k u with hku | hku
  · have hkT : k < (columns.take u).length := by omega
    apply List.nodup_iff_injective_getElem.2
    rintro ⟨i, hi⟩ ⟨j, hj⟩ heq
    simp only at heq
    have hiT : i < (columns.take u).length := by simpa using hi
    have hjT : j < (columns.take u).length := by simpa using hj
    by_cases hik : i = k <;> by_cases hjk : j = k
    · subst hik
      subst hjk
      rfl
    · exfalso
      subst hik
      rw [List.getElem_set_self, List.getElem_set_ne (fun h2 => hjk h2.symm)] at heq
      exact hdT (heq ▸ List.getElem_mem hjT)
    · exfalso
      subst hjk
      rw [List.getElem_set_self, List.getElem_set_ne (fun h2 => hik h2.symm)] at heq
      exact hdT (heq.symm ▸ List.getElem_mem hiT)
    · rw [List.getElem_set_ne (fun h2 => hik h2.symm),
        List.getElem_set_ne (fun h2 => hjk h2.symm)] at heq
      have hfin : (⟨i, hiT⟩ : Fin (List.take u columns).length) = ⟨j, hjT⟩ :=
        List.nodup_iff_injective_getElem.1 hT heq
      have hij : i = j := congrArg Fin.val hfin
      exact Fin.ext hij
  · have hku' : k = u := by omega
    subst hku'
    rw [List.set_eq_of_length_le (le_of_eq hTlen)]
    exact hT

end WindowFacts

/-! ### Facts about the grouping functions -/

theorem split_col_map_fst (l : List RWord) (col : Nat) :
    (split_list_per_column l col).map Prod.fst
      = List.insertionSort (· ≤ ·) ((l.map (fun x => charAt x.2 col)).dedup) := by
  unfold split_list_per_column
  rw [List.map_map]
  have hf : (Prod.fst ∘ fun c => (c, l.filter (fun x => charAt x.2 col == c)))
      = id := rfl
  rw [hf, List.map_id]

theorem split_col_keys_nodup (l : List RWord) (col : Nat) :
    ((split_list_per_column l col).map Prod.fst).Nodup := by
  rw [split_col_map_fst]
  exact ((List.perm_insertionSort _ _).nodup_iff).2 (List.nodup_dedup _)

theorem split_col_mem {l : List RWord} {col : Nat} {p : Char × List RWord}
    (hp : p ∈ split_list_per_column l col) :
    p.2 = l.filter (fun x => charAt x.2 col == p.1) := by
  obtain ⟨c, _, he⟩ := List.mem_map.1 hp
  cases he
  rfl

theorem split_col_group_of_mem {l : List RWord} {col : Nat} {x : RWord}
    (hx : x ∈ l) :
    (charAt x.2 col, l.filter (fun z => charAt z.2 col == charAt x.2 col))
      ∈ split_list_per_column l col := by
  apply List.mem_map.2
  refine ⟨charAt x.2 col, ?_, rfl⟩
  rw [(List.perm_insertionSort _ _).mem_iff, List.mem_dedup]
  exact List.mem_map.2 ⟨x, hx, rfl⟩

theorem split_col_group_ne_nil {l : List RWord} {col : Nat}
    {p : Char × List RWord} (hp : p ∈ split_list_per_column l col) : p.2 ≠ [] := by
  obtain ⟨c, hc, he⟩ := List.mem_map.1 hp
  cases he
  rw [(List.perm_insertionSort _ _).mem_iff, List.mem_dedup] at hc
  obtain ⟨x, hx, hcx⟩ := List.mem_map.1 hc
  exact List.ne_nil_of_mem (List.mem_filter.2 ⟨hx, by simp [hcx]⟩)

theorem split_len_map_fst (l : List RWord) :
    (split_list_per_length l).map Prod.fst
      = List.insertionSort (· ≤ ·) ((l.map (fun x => x.2.length)).dedup) := by
  unfold split_list_per_length
  rw [List.map_map]
  have hf : (Prod.fst ∘ fun n => (n, l.filter (fun x => x.2.length == n)))
      = id := rfl
  rw [hf, List.map_id]

theorem split_len_keys_nodup (l : List RWord) :
    ((split_list_per_length l).map Prod.fst).Nodup := by
  rw [split_len_map_fst]
  exact ((List.perm_insertionSort _ _).nodup_iff).2 (List.nodup_dedup _)

theorem split_len_mem {l : List RWord} {p : Nat × List RWord}
    (hp : p ∈ split_list_per_length l) :
    p.2 = l.filter (fun x => x.2.length == p.1) := by
  obtain ⟨n, _, he⟩ := List.mem_map.1 hp
  cases he
  rfl

theorem split_len_group_of_mem {l : List RWord} {x : RWord} (hx : x ∈ l) :
    (x.2.length, l.filter (fun z => z.2.length == x.2.length))
      ∈ split_list_per_length l := by
  apply List.mem_map.2
  refine ⟨x.2.length, ?_, rfl⟩
  rw [(List.perm_insertionSort _ _).mem_iff, List.mem_dedup]
  exact List.mem_map.2 ⟨x, hx, rfl⟩

theorem split_len_group_ne_nil {l : List RWord} {p : Nat × List RWord}
    (hp : p ∈ split_list_per_length l) : p.2 ≠ [] := by
  obtain ⟨n, hn, he⟩ := List.mem_map.1 hp
  cases he
  rw [(List.perm_insertionSort _ _).mem_iff, List.mem_dedup] at hn
  obtain ⟨x, hx, hnx⟩ := List.mem_map.1 hn
  exact List.ne_nil_of_mem (List.mem_filter.2 ⟨hx, by simp [hnx]⟩)

/-- The `columns=None` default of `generate_letter_switch` equals an explicit
identity column order `range unprocessed_columns`. -/
theorem genLS_nil_columns (opt : Opt) (u ind : Nat) (l : List RWord) :
    generate_letter_switch opt u ind l []
      = generate_letter_switch opt u ind l (List.range u) := by
  cases u with
  | zero => rfl
  | succ u =>
    have h1 : (List.range (u + 1)).isEmpty = false := by
      simp [List.isEmpty_iff, List.range_eq_nil]
    simp only [generate_letter_switch, List.isEmpty_nil, h1, eq_self_iff_true,
      if_true, Bool.false_eq_true, if_false]

/-! ### Soundness of the per-character branch loop -/

theorem genLSGroups_sound (recur : List RWord → Option (List String × Code))
    (ui : Bool) (col ind : Nat) (banned : List Nat) (hcol : col ∉ banned) :
    ∀ groups : List (Char × List RWord),
      (groups.map Prod.fst).Nodup →
      (∀ p ∈ groups, ∃ g, recur p.2 = some g ∧ colsOkB (col :: banned) g.2 = true ∧
        ∀ x ∈ p.2, run x.2 g.2 = Outcome.gotMatch x.1 ∨
          run x.2 g.2 = Outcome.testGuess x.1) →
      (∀ p ∈ groups, ∀ x ∈ p.2, charAt x.2 col = p.1) →
      ∃ G, genLSGroups recur ui col ind groups = some G ∧
        colsOkB banned G.2 = true ∧
        ∀ p ∈ groups, ∀ x ∈ p.2, run x.2 G.2 = Outcome.gotMatch x.1 ∨
          run x.2 G.2 = Outcome.testGuess x.1
  | [] => by
    intro _ _ _
    exact ⟨([], Code.noMatch), rfl, rfl, by simp⟩
  | (c, sub) :: rest => by
    intro hnd hall hkey
    have hnd' : (c :: rest.map Prod.fst).Nodup := by simpa using hnd
    obtain ⟨b, hb, hbcols, hbrun⟩ := hall (c, sub) (List.mem_cons_self _ _)
    obtain ⟨R, hR, hRcols, hRrun⟩ := genLSGroups_sound recur ui col ind banned hcol
      rest (List.nodup_cons.1 hnd').2
      (fun p hp => hall p (List.mem_cons_of_mem _ hp))
      (fun p hp => hkey p (List.mem_cons_of_mem _ hp))
    have hcnotin : c ∉ rest.map Prod.fst := (List.nodup_cons.1 hnd').1
    have hcb : banned.contains col = false := by
      simp only [List.contains, List.elem_eq_mem]
      exact decide_eq_false hcol
    have hrun : ∀ p ∈ (c, sub) :: rest, ∀ x ∈ p.2,
        run x.2 (Code.caseChar ui col c b.2 R.2) = Outcome.gotMatch x.1 ∨
        run x.2 (Code.caseChar ui col c b.2 R.2) = Outcome.testGuess x.1 := by
      intro p hp x hx
      rcases List.mem_cons.1 hp with hph | hpt
      · subst hph
        have hx1 : charAt x.2 col = c := hkey (c, sub) (List.mem_cons_self _ _) x hx
        simp only [run, hx1, beq_self_eq_true, if_true]
        exact hbrun x hx
      · have hx1 : charAt x.2 col = p.1 := hkey p (List.mem_cons_of_mem _ hpt) x hx
        have hne : p.1 ≠ c := by
          intro he
          exact hcnotin (he ▸ List.mem_map.2 ⟨p, hpt, rfl⟩)
        have hbe : (charAt x.2 col == c) = false :=
          beq_eq_false_iff_ne.2 (by rw [hx1]; exact hne)
        simp only [run, hbe, Bool.false_eq_true, if_false]
        exact hRrun p hpt x hx
    have hcols : colsOkB banned (Code.caseChar ui col c b.2 R.2) = true := by
      simp only [colsOkB, hcb, Bool.not_false, hbcols, hRcols, Bool.and_self,
        Bool.true_and, Bool.and_true]
    cases ui with
    | false =>
      refine ⟨(line ind ("  case " ++ pyRepr c ++ ":") :: (b.1 ++ R.1),
        Code.caseChar false col c b.2 R.2), ?_, hcols, hrun⟩
      simp [genLSGroups, hb, hR]
    | true =>
      refine ⟨(line ind ("if (JSRW_AT(" ++ toString col ++ ") == "
          ++ pyRepr c ++ ") \x7b") :: (b.1 ++ [line ind "\x7d"] ++ R.1),
        Code.caseChar true col c b.2 R.2), ?_, hcols, hrun⟩
      simp [genLSGroups, hb, hR]

/-- Controlled unfolding of the multi-candidate branch of
`generate_letter_switch`. -/
theorem genLS_multi_eq (opt : Opt) (u ind : Nat) (a b : RWord) (t : List RWord)
    (columns : List Nat) (hcne : columns.isEmpty = false) {col lastv : Nat}
    (h1 : columns[(optimal_switch_column opt (a :: b :: t) columns (u + 1)).1]?
      = some col)
    (h2 : columns[u]? = some lastv) :
    generate_letter_switch opt (u + 1) ind (a :: b :: t) columns
      = (genLSGroups (fun sub => generate_letter_switch opt u (ind + 1) sub
            (columns.set
              (optimal_switch_column opt (a :: b :: t) columns (u + 1)).1 lastv))
          (optimal_switch_column opt (a :: b :: t) columns (u + 1)).2 col ind
          (split_list_per_column (a :: b :: t) col)).bind
        (fun g => if (optimal_switch_column opt (a :: b :: t) columns (u + 1)).2
          then some (g.1 ++ [line ind "JSRW_NO_MATCH()"], g.2)
          else some (line ind ("switch (JSRW_AT(" ++ toString col ++ ")) \x7b")
            :: (g.1 ++ [line ind "\x7d", line ind "JSRW_NO_MATCH()"]), g.2)) := by
  have h2' : columns[u + 1 - 1]? = some lastv := h2
  simp only [generate_letter_switch, hcne, Bool.false_eq_true, if_false, h1, h2',
    Option.bind_eq_bind, Option.some_bind, Option.pure_def]

/-- Heads of a list with pairwise-distinct words are distinct words. -/
theorem nodup_head_ne {a b : RWord} {t : List RWord}
    (hnd : ((a :: b :: t).map Prod.snd).Nodup) : a.2 ≠ b.2 := by
  have h1 : a.2 ∉ (b :: t).map Prod.snd := (List.nodup_cons.1 (by simpa using hnd)).1
  intro h
  exact h1 (h ▸ List.mem_cons_self _ _)

/-- Master soundness of `generate_letter_switch`: on a non-empty candidate list
of pairwise-distinct words that differ inside the unprocessed window (a
pairwise-distinct window of size `unprocessed_columns` inside `columns`,
disjoint from the columns already dispatched on the path), generation succeeds,
never re-tests a dispatched column, and sends every candidate to its own
`JSRW_GOT_MATCH` or `JSRW_TEST_GUESS` leaf. -/
theorem genLS_sound (opt : Opt) :
    ∀ (u ind : Nat) (l : List RWord) (columns banned : List Nat),
      l ≠ [] → (l.map Prod.snd).Nodup →
      (∀ x ∈ l, ∀ y ∈ l, x.2 ≠ y.2 →
        ∃ p ∈ columns.take u, charAt x.2 p ≠ charAt y.2 p) →
      (columns.take u).Nodup → u ≤ columns.length →
      (∀ c ∈ columns.take u, c ∉ banned) →
      ∃ g, generate_letter_switch opt u ind l columns = some g ∧
        colsOkB banned g.2 = true ∧
        ∀ x ∈ l, run x.2 g.2 = Outcome.gotMatch x.1 ∨
          run x.2 g.2 = Outcome.testGuess x.1
  | 0, ind, l, columns, banned => by
    intro hne hnd hH2 hwnd hlen hban
    match l, hne with
    | [x], _ =>
      refine ⟨_, rfl, rfl, ?_⟩
      intro y hy
      have hyx : y = x := by simpa using hy
      subst hyx
      exact Or.inl rfl
    | a :: b :: t, _ =>
      exfalso
      have hab : a.2 ≠ b.2 := nodup_head_ne hnd
      obtain ⟨p, hp, _⟩ := hH2 a (by simp) b (by simp) hab
      simp at hp
  | u + 1, ind, l, columns, banned => by
    intro hne hnd hH2 hwnd hlen hban
    have hcne : columns.isEmpty = false := by
      cases columns
      · simp at hlen
      · rfl
    match l, hne with
    | [x], _ =>
      by_cases hguess : opt.char_tail_test_threshold < u + 1
      · refine ⟨([line ind ("JSRW_TEST_GUESS(" ++ toString x.1 ++ ") /* "
          ++ String.mk x.2 ++ " */")], Code.testGuess x.1), ?_, rfl, ?_⟩
        · simp [generate_letter_switch, hcne, hguess]
        · intro y hy
          have hyx : y = x := by simpa using hy
          subst hyx
          exact Or.inr rfl
      · have hfst : (((columns.take (u + 1)).map
            (fun c => (c, charAt x.2 c))).map Prod.fst) = columns.take (u + 1) := by
          rw [List.map_map]
          have hid : (Prod.fst ∘ fun c => (c, charAt x.2 c)) = id := rfl
          rw [hid, List.map_id]
        have h1 : decide ((((columns.take (u + 1)).map
            (fun c => (c, charAt x.2 c))).map Prod.fst).Nodup) = true :=
          decide_eq_true (by rw [hfst]; exact hwnd)
        have h2 : (((columns.take (u + 1)).map (fun c => (c, charAt x.2 c))).all
            (fun p => !banned.contains p.1)) = true := by
          rw [List.all_eq_true]
          intro p hp
          obtain ⟨c, hc, he⟩ := List.mem_map.1 hp
          cases he
          have hcb := hban c hc
          simp only [List.contains, List.elem_eq_mem, Bool.not_eq_true']
          exact decide_eq_false hcb
        have hcond : (((columns.take (u + 1)).map (fun c => (c, charAt x.2 c))).all
            (fun p => charAt x.2 p.1 == p.2)) = true := by
          rw [List.all_eq_true]
          intro p hp
          obtain ⟨c, hc, he⟩ := List.mem_map.1 hp
          cases he
          simp
        have hgen : generate_letter_switch opt (u + 1) ind [x] columns
            = some ([line ind ("if (" ++ String.intercalate " && "
                (((columns.take (u + 1)).map (fun c => (c, charAt x.2 c))).map
                  (fun p => "JSRW_AT(" ++ toString p.1 ++ ")==" ++ pyRepr p.2))
                ++ ") \x7b"),
              line (ind + 1) ("JSRW_GOT_MATCH(" ++ toString x.1 ++ ") /* "
                ++ String.mk x.2 ++ " */"),
              line ind "\x7d",
              line ind "JSRW_NO_MATCH()"],
              Code.ifConds ((columns.take (u + 1)).map (fun c => (c, charAt x.2 c)))
                (Code.gotMatch x.1) Code.noMatch) := by
          simp [generate_letter_switch, hcne, hguess]
        refine ⟨_, hgen, ?_, ?_⟩
        · show colsOkB banned (Code.ifConds ((columns.take (u + 1)).map
            (fun c => (c, charAt x.2 c))) (Code.gotMatch x.1) Code.noMatch) = true
          simp only [colsOkB, h1, h2, Bool.and_self, Bool.true_and, Bool.and_true]
        · intro y hy
          have hyx : y = x := by simpa using hy
          subst hyx
          left
          simp only [run, hcond, if_true]
    | a :: b :: t, _ =>
      have hab : a.2 ≠ b.2 := nodup_head_ne hnd
      have hmb : b ∈ a :: b :: t := by simp
      have hdiff := hH2 a (by simp) b hmb hab
      have hk : (optimal_switch_column opt (a :: b :: t) columns (u + 1)).1 < u + 1 :=
        osc_lt opt (by simp) hmb hdiff (by omega)
      have hget1 : columns[(optimal_switch_column opt (a :: b :: t) columns (u + 1)).1]?
          = some (columns.getD
            (optimal_switch_column opt (a :: b :: t) columns (u + 1)).1 0) := by
        rw [List.getElem?_eq_getElem (by omega)]
        rw [List.getD_eq_getElem _ _ (by omega)]
      have hget2 : columns[u + 1 - 1]? = some (columns.getD u 0) := by
        have he : u + 1 - 1 = u := rfl
        rw [he, List.getElem?_eq_getElem (by omega),
          List.getD_eq_getElem _ _ (by omega)]
      have hcolmem := win_col_mem hk hlen
      have hcolban : columns.getD
          (optimal_switch_column opt (a :: b :: t) columns (u + 1)).1 0 ∉ banned :=
        hban _ hcolmem
      have hgroups : ∀ p ∈ split_list_per_column (a :: b :: t)
          (columns.getD (optimal_switch_column opt (a :: b :: t) columns (u + 1)).1 0),
          ∃ g, (fun sub => generate_letter_switch opt u (ind + 1) sub
              (columns.set (optimal_switch_column opt (a :: b :: t) columns (u + 1)).1
                (columns.getD u 0))) p.2 = some g ∧
            colsOkB (columns.getD
              (optimal_switch_column opt (a :: b :: t) columns (u + 1)).1 0
              :: banned) g.2 = true ∧
            ∀ x ∈ p.2, run x.2 g.2 = Outcome.gotMatch x.1 ∨
              run x.2 g.2 = Outcome.testGuess x.1 := by
        intro p hp
        have hsubeq := split_col_mem hp
        have hsubne := split_col_group_ne_nil hp
        have hsublist : List.Sublist p.2 (a :: b :: t) := by
          rw [hsubeq]
          exact List.filter_sublist _
        apply genLS_sound opt u (ind + 1) p.2 _ _ hsubne
        · exact (hsublist.map Prod.snd).nodup hnd
        · intro x hxp y hyp hxy
          obtain ⟨q, hq, hqne⟩ := hH2 x (hsublist.subset hxp) y
            (hsublist.subset hyp) hxy
          have hxcol : charAt x.2 (columns.getD
              (optimal_switch_column opt (a :: b :: t) columns (u + 1)).1 0) = p.1 := by
            rw [hsubeq] at hxp
            simpa using (List.mem_filter.1 hxp).2
          have hycol : charAt y.2 (columns.getD
              (optimal_switch_column opt (a :: b :: t) columns (u + 1)).1 0) = p.1 := by
            rw [hsubeq] at hyp
            simpa using (List.mem_filter.1 hyp).2
          have hqcol : q ≠ columns.getD
              (optimal_switch_column opt (a :: b :: t) columns (u + 1)).1 0 := by
            intro he
            rw [he] at hqne
            exact hqne (hxcol.trans hycol.symm)
          exact ⟨q, win_old_mem_new hk hlen hwnd q hq hqcol, hqne⟩
        · exact win_new_nodup hk hlen hwnd
        · rw [List.length_set]
          omega
        · intro cc hcc
          have hccW := win_new_subset hk hlen cc hcc
          have hccne := win_new_ne_col hk hlen hwnd cc hcc
          simp only [List.mem_cons, not_or]
          exact ⟨hccne, hban cc hccW⟩
      obtain ⟨G, hG, hGcols, hGrun⟩ := genLSGroups_sound
        (fun sub => generate_letter_switch opt u (ind + 1) sub
          (columns.set (optimal_switch_column opt (a :: b :: t) columns (u + 1)).1
            (columns.getD u 0)))
        (optimal_switch_column opt (a :: b :: t) columns (u + 1)).2
        (columns.getD (optimal_switch_column opt (a :: b :: t) columns (u + 1)).1 0)
        ind banned hcolban
        (split_list_per_column (a :: b :: t)
          (columns.getD (optimal_switch_column opt (a :: b :: t) columns (u + 1)).1 0))
        (split_col_keys_nodup _ _)
        hgroups
        (fun p hp x hx => by
          have hsubeq := split_col_mem hp
          rw [hsubeq] at hx
          simpa using (List.mem_filter.1 hx).2)
      have hrunall : ∀ x ∈ a :: b :: t, run x.2 G.2 = Outcome.gotMatch x.1 ∨
          run x.2 G.2 = Outcome.testGuess x.1 := by
        intro x hx
        exact hGrun _ (split_col_group_of_mem hx) x (List.mem_filter.2 ⟨hx, by simp⟩)
      rw [genLS_multi_eq opt u ind a b t columns hcne hget1 hget2, hG,
        Option.some_bind]
      cases hui : (optimal_switch_column opt (a :: b :: t) columns (u + 1)).2 with
      | true =>
        rw [if_pos rfl]
        exact ⟨_, rfl, hGcols, hrunall⟩
      | false =>
        rw [if_neg Bool.false_ne_true]
        exact ⟨_, rfl, hGcols, hrunall⟩

/-! ### Soundness of the top-level length dispatch -/

theorem genSwitchGroups_sound (opt : Opt) (ui : Bool) (ind : Nat) :
    ∀ groups : List (Nat × List RWord),
      (groups.map Prod.fst).Nodup →
      (∀ p ∈ groups, ∃ g, generate_letter_switch opt p.1 (ind + 1) p.2 [] = some g ∧
        colsOkB [] g.2 = true ∧
        ∀ x ∈ p.2, run x.2 g.2 = Outcome.gotMatch x.1 ∨
          run x.2 g.2 = Outcome.testGuess x.1) →
      (∀ p ∈ groups, ∀ x ∈ p.2, x.2.length = p.1) →
      ∃ G, genSwitchGroups opt ui ind groups = some G ∧
        colsOkB [] G.2 = true ∧
        lenKeys G.2 = groups.map Prod.fst ∧
        lenModes G.2 = groups.map (fun _ => ui) ∧
        ∀ p ∈ groups, ∀ x ∈ p.2, run x.2 G.2 = Outcome.gotMatch x.1 ∨
          run x.2 G.2 = Outcome.testGuess x.1
  | [] => by
    intro _ _ _
    exact ⟨([], Code.noMatch), rfl, rfl, rfl, rfl, by simp⟩
  | (n, sub) :: rest => by
    intro hnd hall hlen
    have hnd' : (n :: rest.map Prod.fst).Nodup := by simpa using hnd
    obtain ⟨b, hb, hbcols, hbrun⟩ := hall (n, sub) (List.mem_cons_self _ _)
    obtain ⟨R, hR, hRcols, hRkeys, hRmodes, hRrun⟩ := genSwitchGroups_sound opt ui ind
      rest (List.nodup_cons.1 hnd').2
      (fun p hp => hall p (List.mem_cons_of_mem _ hp))
      (fun p hp => hlen p (List.mem_cons_of_mem _ hp))
    have hnnotin : n ∉ rest.map Prod.fst := (List.nodup_cons.1 hnd').1
    have hrun : ∀ p ∈ (n, sub) :: rest, ∀ x ∈ p.2,
        run x.2 (Code.caseLen ui n b.2 R.2) = Outcome.gotMatch x.1 ∨
        run x.2 (Code.caseLen ui n b.2 R.2) = Outcome.testGuess x.1 := by
      intro p hp x hx
      rcases List.mem_cons.1 hp with hph | hpt
      · subst hph
        have hx1 : x.2.length = n := hlen (n, sub) (List.mem_cons_self _ _) x hx
        simp only [run, hx1, beq_self_eq_true, if_true]
        exact hbrun x hx
      · have hx1 : x.2.length = p.1 := hlen p (List.mem_cons_of_mem _ hpt) x hx
        have hne : p.1 ≠ n := by
          intro he
          exact hnnotin (he ▸ List.mem_map.2 ⟨p, hpt, rfl⟩)
        have hbe : (x.2.length == n) = false :=
          beq_eq_false_iff_ne.2 (by rw [hx1]; exact hne)
        simp only [run, hbe, Bool.false_eq_true, if_false]
        exact hRrun p hpt x hx
    have hcols : colsOkB [] (Code.caseLen ui n b.2 R.2) = true := by
      simp only [colsOkB, hbcols, hRcols, Bool.and_self]
    have hkeys : lenKeys (Code.caseLen ui n b.2 R.2) = n :: rest.map Prod.fst := by
      simp only [lenKeys, hRkeys]
    have hmodes : lenModes (Code.caseLen ui n b.2 R.2)
        = ui :: rest.map (fun _ => ui) := by
      simp only [lenModes, hRmodes]
    cases ui with
    | false =>
      refine ⟨(line ind ("  case " ++ toString n ++ ":") :: (b.1 ++ R.1),
        Code.caseLen false n b.2 R.2), ?_, hcols, hkeys, hmodes, hrun⟩
      simp [genSwitchGroups, hb, hR]
    | true =>
      refine ⟨(line ind ("if (JSRW_LENGTH() == " ++ toString n ++ ") \x7b")
          :: (b.1 ++ [line ind "\x7d"] ++ R.1),
        Code.caseLen true n b.2 R.2), ?_, hcols, hkeys, hmodes, hrun⟩
      simp [genSwitchGroups, hb, hR]

/-- Master soundness of the full generator at `main`'s options: on a valid
corpus it succeeds, never re-tests a column on any path, dispatches on the
sorted distinct lengths, and sends every corpus word to its own match or guess
leaf. -/
theorem genMain_sound {l : List RWord} (hv : ValidCorpus l) :
    ∃ g, genMain l = some g ∧
      colsOkB [] g.2 = true ∧
      lenKeys g.2 = (split_list_per_length l).map Prod.fst ∧
      lenModes g.2 = (split_list_per_length l).map
        (fun _ => decide ((split_list_per_length l).length < mainOpt.use_if_threshold)) ∧
      ∀ x ∈ l, run x.2 g.2 = Outcome.gotMatch x.1 ∨
        run x.2 g.2 = Outcome.testGuess x.1 := by
  obtain ⟨hne, hnd⟩ := hv
  have hgroups : ∀ p ∈ split_list_per_length l,
      ∃ g, generate_letter_switch mainOpt p.1 (1 + 1) p.2 [] = some g ∧
        colsOkB [] g.2 = true ∧
        ∀ x ∈ p.2, run x.2 g.2 = Outcome.gotMatch x.1 ∨
          run x.2 g.2 = Outcome.testGuess x.1 := by
    intro p hp
    have hsubeq := split_len_mem hp
    have hsubne := split_len_group_ne_nil hp
    have hsublist : List.Sublist p.2 l := by
      rw [hsubeq]
      exact List.filter_sublist _
    have hlens : ∀ x ∈ p.2, x.2.length = p.1 := by
      intro x hx
      rw [hsubeq] at hx
      simpa using (List.mem_filter.1 hx).2
    rw [genLS_nil_columns]
    apply genLS_sound mainOpt p.1 (1 + 1) p.2 (List.range p.1) [] hsubne
    · exact (hsublist.map Prod.snd).nodup hnd
    · intro x hxp y hyp hxy
      obtain ⟨q, hqL, hqne⟩ := words_diff_at (hlens x hxp) (hlens y hyp) hxy
      refine ⟨q, ?_, hqne⟩
      have hr : (List.range p.1).take p.1 = List.range p.1 :=
        List.take_of_length_le (by rw [List.length_range])
      rw [hr]
      exact List.mem_range.2 hqL
    · have hr : (List.range p.1).take p.1 = List.range p.1 :=
        List.take_of_length_le (by rw [List.length_range])
      rw [hr]
      exact List.nodup_range p.1
    · rw [List.length_range]
    · intro c _ hc
      exact absurd hc (List.not_mem_nil c)
  obtain ⟨G, hG, hGcols, hGkeys, hGmodes, hGrun⟩ := genSwitchGroups_sound mainOpt
    (decide ((split_list_per_length l).length < mainOpt.use_if_threshold)) 1
    (split_list_per_length l)
    (split_len_keys_nodup l)
    hgroups
    (fun p hp x hx => by
      have hsubeq := split_len_mem hp
      rw [hsubeq] at hx
      simpa using (List.mem_filter.1 hx).2)
  have hrunall : ∀ x ∈ l, run x.2 G.2 = Outcome.gotMatch x.1 ∨
      run x.2 G.2 = Outcome.testGuess x.1 := by
    intro x hx
    exact hGrun _ (split_len_group_of_mem hx) x (List.mem_filter.2 ⟨hx, by simp⟩)
  match l, hne with
  | a :: t, _ =>
    refine ⟨((line 1 "/*" ::
        line 1 (" * Generating switch for the list of "
          ++ toString (a :: t).length ++ " entries:") ::
        ((a :: t).map (fun x => line 1 (" * " ++ String.mk x.2)) ++ [line 1 " */"]))
        ++ (if decide ((split_list_per_length (a :: t)).length
              < mainOpt.use_if_threshold) = true
            then G.1 ++ [line 1 "JSRW_NO_MATCH()"]
            else line 1 "switch (JSRW_LENGTH()) \x7b"
              :: (G.1 ++ [line 1 "\x7d", line 1 "JSRW_NO_MATCH()"])), G.2),
      ?_, hGcols, hGkeys, hGmodes, hrunall⟩
    show generate_switch mainOpt 1 (a :: t) = _
    simp only [generate_switch, hG, Option.map_some']

/-! ### Claim C1: every corpus word reaches its own match or guess leaf -/

/-- C1: for every `(index, word)` pair of a valid corpus (non-empty,
pairwise-distinct words), the generator succeeds and running the emitted
decision procedure on exactly that word's characters terminates with
`JSRW_GOT_MATCH(index)` or with `JSRW_TEST_GUESS(index)`; in particular it
never reaches `JSRW_NO_MATCH()` on a corpus word. -/
theorem corpus_words_match {l : List RWord} (hv : ValidCorpus l) :
    ∃ g, genMain l = some g ∧
      ∀ x ∈ l, run x.2 g.2 = Outcome.gotMatch x.1 ∨
        run x.2 g.2 = Outcome.testGuess x.1 := by
  obtain ⟨g, h1, _, _, _, h5⟩ := genMain_sound hv
  exact ⟨g, h1, h5⟩

/-- Witness for C1 on the corpus `{0: "if", 1: "in", 2: "int"}`, word "if". -/
theorem corpus_words_match_witness :
    run ['i', 'f'] (((genMain [(0, ['i', 'f']), (1, ['i', 'n']),
        (2, ['i', 'n', 't'])]).getD ([], Code.noMatch)).2) = Outcome.gotMatch 0 ∨
    run ['i', 'f'] (((genMain [(0, ['i', 'f']), (1, ['i', 'n']),
        (2, ['i', 'n', 't'])]).getD ([], Code.noMatch)).2) = Outcome.testGuess 0 := by
  obtain ⟨g, h1, h2⟩ := corpus_words_match
    (show ValidCorpus [(0, ['i', 'f']), (1, ['i', 'n']), (2, ['i', 'n', 't'])]
      by decide)
  rw [h1, Option.getD_some]
  exact h2 (0, ['i', 'f']) (by decide)

/-! ### Claim C3: no column is tested twice along any root-to-leaf path -/

/-- C3: on a valid corpus, the decision tree emitted by the generator never
tests a column position twice along a single root-to-leaf path: every column
dispatched at an inner node is excluded from the tests of all its descendants,
and a near-leaf conjunction covers only still-untested (pairwise-distinct)
columns — the `colsOkB []` invariant. -/
theorem no_column_retested {l : List RWord} (hv : ValidCorpus l) :
    ∃ g, genMain l = some g ∧ colsOkB [] g.2 = true := by
  obtain ⟨g, h1, h2, _, _, _⟩ := genMain_sound hv
  exact ⟨g, h1, h2⟩

/-- Witness for C3 on the corpus `{0: "if", 1: "in", 2: "int"}`. -/
theorem no_column_retested_witness :
    colsOkB [] (((genMain [(0, ['i', 'f']), (1, ['i', 'n']),
        (2, ['i', 'n', 't'])]).getD ([], Code.noMatch)).2) = true := by
  obtain ⟨g, h1, h2⟩ := no_column_retested
    (show ValidCorpus [(0, ['i', 'f']), (1, ['i', 'n']), (2, ['i', 'n', 't'])]
      by decide)
  rw [h1, Option.getD_some]
  exact h2

/-! ### Claim C6: the length dispatch enumerates lengths in ascending order -/

/-- C6: on a valid corpus, the top-level dispatch of `generate_switch`
enumerates exactly the distinct word lengths of the corpus, in strictly
ascending order, and every branch is an independent `JSRW_LENGTH()` equality
check exactly when the number of distinct lengths is strictly below the
threshold 3, and a `switch` case on `JSRW_LENGTH()` otherwise. -/
theorem length_dispatch_spec {l : List RWord} (hv : ValidCorpus l) :
    ∃ g, genMain l = some g ∧
      List.Sorted (· < ·) (lenKeys g.2) ∧
      (∀ n, n ∈ lenKeys g.2 ↔ ∃ x ∈ l, x.2.length = n) ∧
      lenModes g.2 = List.replicate (lenKeys g.2).length
        (decide ((lenKeys g.2).length < 3)) := by
  obtain ⟨g, h1, _, hkeys, hmodes, _⟩ := genMain_sound hv
  have hsortle : ((split_list_per_length l).map Prod.fst).Sorted (· ≤ ·) := by
    rw [split_len_map_fst]
    exact List.sorted_insertionSort _ _
  have hknodup := split_len_keys_nodup l
  refine ⟨g, h1, ?_, ?_, ?_⟩
  · rw [hkeys]
    exact hsortle.lt_of_le hknodup
  · intro n
    rw [hkeys, split_len_map_fst, (List.perm_insertionSort _ _).mem_iff,
      List.mem_dedup, List.mem_map]
  · have hlen : (lenKeys g.2).length = (split_list_per_length l).length := by
      rw [hkeys, List.length_map]
    have hrep : ∀ (b : Bool), (split_list_per_length l).map (fun _ => b)
        = List.replicate (split_list_per_length l).length b := by
      intro b
      induction split_list_per_length l with
      | nil => rfl
      | cons h t ih => simp [ih, List.replicate_succ]
    rw [hmodes, hlen]
    exact hrep (decide ((split_list_per_length l).length < 3))

/-- Witness for C6 on the corpus `{0: "if", 1: "in", 2: "int"}` (lengths 2 and
3; two distinct lengths is below the threshold 3, so the if-chain is used). -/
theorem length_dispatch_spec_witness :
    List.Sorted (· < ·) (lenKeys (((genMain [(0, ['i', 'f']), (1, ['i', 'n']),
        (2, ['i', 'n', 't'])]).getD ([], Code.noMatch)).2)) ∧
    lenModes (((genMain [(0, ['i', 'f']), (1, ['i', 'n']),
        (2, ['i', 'n', 't'])]).getD ([], Code.noMatch)).2)
      = List.replicate (lenKeys (((genMain [(0, ['i', 'f']), (1, ['i', 'n']),
        (2, ['i', 'n', 't'])]).getD ([], Code.noMatch)).2)).length
        (decide ((lenKeys (((genMain [(0, ['i', 'f']), (1, ['i', 'n']),
        (2, ['i', 'n', 't'])]).getD ([], Code.noMatch)).2)).length < 3)) := by
  obtain ⟨g, h1, h2, _, h4⟩ := length_dispatch_spec
    (show ValidCorpus [(0, ['i', 'f']), (1, ['i', 'n']), (2, ['i', 'n', 't'])]
      by decide)
  rw [h1, Option.getD_some]
  exact ⟨h2, h4⟩

/-! ### Claim C5: guess leaves appear exactly past the tail-test threshold -/

/-- The effective column order: `generate_letter_switch` behaves on `cols` as
on `if cols.isEmpty then range (u + 1) else cols`. -/
theorem genLS_eff (opt : Opt) (u ind : Nat) (l : List RWord) (cols : List Nat) :
    generate_letter_switch opt (u + 1) ind l cols
      = generate_letter_switch opt (u + 1) ind l
          (if cols.isEmpty then List.range (u + 1) else cols) := by
  cases cols with
  | nil => exact genLS_nil_columns opt (u + 1) ind l
  | cons c t => rfl

/-- Decomposition of a successful multi-candidate generation step. -/
theorem genLS_multi_cases (opt : Opt) (u ind : Nat) (a b : RWord)
    (t : List RWord) (cols : List Nat) (g : List String × Code)
    (hcne : cols.isEmpty = false)
    (hg : generate_letter_switch opt (u + 1) ind (a :: b :: t) cols = some g) :
    ∃ col lastv G,
      cols[(optimal_switch_column opt (a :: b :: t) cols (u + 1)).1]? = some col ∧
      cols[u]? = some lastv ∧
      genLSGroups (fun sub => generate_letter_switch opt u (ind + 1) sub
          (cols.set (optimal_switch_column opt (a :: b :: t) cols (u + 1)).1 lastv))
        (optimal_switch_column opt (a :: b :: t) cols (u + 1)).2 col ind
        (split_list_per_column (a :: b :: t) col) = some G ∧
      g.2 = G.2 := by
  simp only [generate_letter_switch, hcne, Bool.false_eq_true, if_false,
    Option.bind_eq_bind] at hg
  rcases h1 : cols[(optimal_switch_column opt (a :: b :: t) cols (u + 1)).1]?
    with _ | col
  · rw [h1] at hg
    simp at hg
  rcases h2 : cols[u]? with _ | lastv
  · have h2' : cols[u + 1 - 1]? = none := h2
    rw [h1, h2'] at hg
    simp at hg
  have h2' : cols[u + 1 - 1]? = some lastv := h2
  rw [h1, h2'] at hg
  simp only [Option.some_bind] at hg
  rcases h3 : genLSGroups (fun sub => generate_letter_switch opt u (ind + 1) sub
      (cols.set (optimal_switch_column opt (a :: b :: t) cols (u + 1)).1 lastv))
      (optimal_switch_column opt (a :: b :: t) cols (u + 1)).2 col ind
      (split_list_per_column (a :: b :: t) col) with _ | G
  · rw [h3] at hg
    simp at hg
  rw [h3] at hg
  simp only [Option.some_bind] at hg
  refine ⟨col, lastv, G, rfl, rfl, h3, ?_⟩
  cases hui : (optimal_switch_column opt (a :: b :: t) cols (u + 1)).2 with
  | true =>
    rw [hui] at hg
    simp only [if_pos] at hg
    exact (congrArg Prod.snd (Option.some.inj hg)).symm
  | false =>
    rw [hui] at hg
    simp only [Bool.false_eq_true, if_false] at hg
    exact (congrArg Prod.snd (Option.some.inj hg)).symm

/-- A guess leaf inside a branch chain comes from one of the branch bodies. -/
theorem genLSGroups_guess (recur : List RWord → Option (List String × Code))
    (ui : Bool) (col ind : Nat) :
    ∀ (groups : List (Char × List RWord)) (G : List String × Code),
      genLSGroups recur ui col ind groups = some G → hasGuess G.2 = true →
      ∃ p ∈ groups, ∃ b, recur p.2 = some b ∧ hasGuess b.2 = true
  | [], G => by
    intro hG hg
    have hGe : ([], Code.noMatch) = G := by simpa [genLSGroups] using hG
    rw [← hGe] at hg
    simp [hasGuess] at hg
  | (c, sub) :: rest, G => by
    intro hG hg
    rcases hb : recur sub with _ | b
    · rw [genLSGroups, hb] at hG
      simp at hG
    rcases hR : genLSGroups recur ui col ind rest with _ | R
    · rw [genLSGroups, hb, hR] at hG
      simp at hG
    have hG2 : G.2 = Code.caseChar ui col c b.2 R.2 := by
      rw [genLSGroups, hb, hR] at hG
      cases ui with
      | true =>
        simp only [Option.bind_eq_bind, Option.some_bind, if_pos] at hG
        exact (congrArg Prod.snd (Option.some.inj hG)).symm
      | false =>
        simp only [Option.bind_eq_bind, Option.some_bind, Bool.false_eq_true,
          if_false] at hG
        exact (congrArg Prod.snd (Option.some.inj hG)).symm
    rw [hG2] at hg
    simp only [hasGuess, Bool.or_eq_true] at hg
    rcases hg with hgb | hgR
    · exact ⟨(c, sub), List.mem_cons_self _ _, b, hb, hgb⟩
    · obtain ⟨p, hp, b', hb', hgb'⟩ := genLSGroups_guess recur ui col ind rest R hR hgR
      exact ⟨p, List.mem_cons_of_mem _ hp, b', hb', hgb'⟩

/-- A guess leaf can only be emitted when `unprocessed_columns` exceeds the
tail-test threshold. -/
theorem genLS_guess_bound (opt : Opt) :
    ∀ (u ind : Nat) (l : List RWord) (cols : List Nat) (g : List String × Code),
      generate_letter_switch opt u ind l cols = some g → hasGuess g.2 = true →
      opt.char_tail_test_threshold < u
  | 0, ind, l, cols, g => by
    intro hg hguess
    match l with
    | [] => simp [generate_letter_switch] at hg
    | [x] =>
      simp only [generate_letter_switch, Option.some.injEq] at hg
      rw [← hg] at hguess
      simp [hasGuess] at hguess
    | _ :: _ :: _ => simp [generate_letter_switch] at hg
  | u + 1, ind, l, cols, g => by
    intro hg hguess
    match l with
    | [] => simp [generate_letter_switch] at hg
    | [x] =>
      by_cases hc : opt.char_tail_test_threshold < u + 1
      · exact hc
      · exfalso
        simp only [generate_letter_switch, hc, if_false, Option.some.injEq] at hg
        rw [← hg] at hguess
        simp [hasGuess] at hguess
    | a :: b :: t =>
      rw [genLS_eff] at hg
      have hcne : (if cols.isEmpty then List.range (u + 1) else cols).isEmpty
          = false := by
        cases cols with
        | nil =>
          simp [List.isEmpty_iff, List.range_eq_nil]
        | cons c t2 => rfl
      obtain ⟨col, lastv, G, _, _, h3, hG2⟩ :=
        genLS_multi_cases opt u ind a b t _ g hcne hg
      rw [hG2] at hguess
      obtain ⟨p, _, b', hb', hgb'⟩ := genLSGroups_guess _ _ _ _ _ G h3 hguess
      have := genLS_guess_bound opt u (ind + 1) p.2 _ b' hb' hgb'
      omega

/-- C5: a `JSRW_TEST_GUESS(i)` leaf is emitted for a node exactly when a single
candidate remains and its number of unprocessed columns exceeds the tail-test
threshold 4.  First conjunct: the single-candidate node emits `JSRW_GOT_MATCH`
at 0 unprocessed columns, `JSRW_TEST_GUESS` above 4, and otherwise a
conjunction of equality tests over all remaining columns guarding
`JSRW_GOT_MATCH` and falling through to `JSRW_NO_MATCH`.  Second conjunct: any
generated code containing a guess leaf comes from a call with more than 4
unprocessed columns. -/
theorem guess_leaf_iff :
    (∀ (u ind i : Nat) (w : List Char) (cols : List Nat),
      ∃ ls, generate_letter_switch mainOpt u ind [(i, w)] cols
        = some (ls,
          if u = 0 then Code.gotMatch i
          else if 4 < u then Code.testGuess i
          else Code.ifConds
            (((if cols.isEmpty then List.range u else cols).take u).map
              (fun c => (c, charAt w c)))
            (Code.gotMatch i) Code.noMatch)) ∧
    (∀ (u ind : Nat) (l : List RWord) (cols : List Nat) (g : List String × Code),
      generate_letter_switch mainOpt u ind l cols = some g →
      hasGuess g.2 = true → 4 < u) := by
  constructor
  · intro u ind i w cols
    cases u with
    | zero =>
      refine ⟨[line ind ("JSRW_GOT_MATCH(" ++ toString i ++ ") /* "
        ++ String.mk w ++ " */")], ?_⟩
      simp [generate_letter_switch]
    | succ u =>
      by_cases h4 : 4 < u + 1
      · refine ⟨[line ind ("JSRW_TEST_GUESS(" ++ toString i ++ ") /* "
          ++ String.mk w ++ " */")], ?_⟩
        simp [generate_letter_switch, mainOpt, h4]
      · refine ⟨[line ind ("if (" ++ String.intercalate " && "
            ((((if cols.isEmpty then List.range (u + 1) else cols).take (u + 1)).map
              (fun c => (c, charAt w c))).map
              (fun p => "JSRW_AT(" ++ toString p.1 ++ ")==" ++ pyRepr p.2))
            ++ ") \x7b"),
          line (ind + 1) ("JSRW_GOT_MATCH(" ++ toString i ++ ") /* "
            ++ String.mk w ++ " */"),
          line ind "\x7d",
          line ind "JSRW_NO_MATCH()"], ?_⟩
        simp [generate_letter_switch, mainOpt, h4]
  · intro u ind l cols g hg hh
    exact genLS_guess_bound mainOpt u ind l cols g hg hh

/-- Witness for C5: with a single 5-letter candidate and 5 unprocessed columns
the emitted leaf is `JSRW_TEST_GUESS(0)`, and the guess bound applies. -/
theorem guess_leaf_iff_witness :
    (∃ ls, generate_letter_switch mainOpt 5 1 [(0, ['a', 'b', 'c', 'd', 'e'])]
      [0, 1, 2, 3, 4] = some (ls, Code.testGuess 0)) ∧ 4 < 5 := by
  constructor
  · obtain ⟨ls, hls⟩ := guess_leaf_iff.1 5 1 0 ['a', 'b', 'c', 'd', 'e']
      [0, 1, 2, 3, 4]
    exact ⟨ls, by simpa using hls⟩
  · have hs : (generate_letter_switch mainOpt 5 1 [(0, ['a', 'b', 'c', 'd', 'e'])]
        [0, 1, 2, 3, 4]).isSome = true := by decide
    refine guess_leaf_iff.2 5 1 [(0, ['a', 'b', 'c', 'd', 'e'])] [0, 1, 2, 3, 4]
      ((generate_letter_switch mainOpt 5 1 [(0, ['a', 'b', 'c', 'd', 'e'])]
        [0, 1, 2, 3, 4]).get hs)
      (Option.some_get hs).symm ?_
    rfl

/-! ### Claim C8: what the header comment actually enumerates -/

/-- C8 counterexample: on the corpus `{7: "if"}` the header comment (the first
four emitted lines, up to and including the closing ` */`) lists the word but
nowhere contains the digit `7`, so it cannot enumerate the word together with
its index 7; the header gives only the entry count and the bare words. -/
theorem header_no_index_counterexample :
    (genMain [(7, ['i', 'f'])]).map (fun g => (g.1.take 4,
        (g.1.take 4).all (fun s => s.data.all (fun ch => ch != '7'))))
      = some (["    /*\n", "     * Generating switch for the list of 1 entries:\n",
          "     * if\n", "     */\n"], true) := by
  decide

/-- C8 amended: the output of `generate_switch` begins with a header comment
that enumerates every word of the corpus, one line per word, in input order
(without indices; the second line carries the entry count). -/
theorem header_lists_words {l : List RWord} (hne : l ≠ []) :
    ∀ g, genMain l = some g →
      g.1.take (3 + l.length)
        = line 1 "/*"
          :: line 1 (" * Generating switch for the list of "
              ++ toString l.length ++ " entries:")
          :: ((l.map (fun x => line 1 (" * " ++ String.mk x.2)))
            ++ [line 1 " */"]) := by
  intro g hg
  match l, hne with
  | a :: t, _ =>
    rcases hx : genSwitchGroups mainOpt
        (decide ((split_list_per_length (a :: t)).length < mainOpt.use_if_threshold))
        1 (split_list_per_length (a :: t)) with _ | G
    · rw [genMain, generate_switch, hx] at hg
      simp at hg
    · rw [genMain, generate_switch, hx] at hg
      simp only [Option.map_some', Option.some.injEq] at hg
      rw [← hg]
      have hlen : (line 1 "/*"
          :: line 1 (" * Generating switch for the list of "
              ++ toString (a :: t).length ++ " entries:")
          :: (((a :: t).map (fun x => line 1 (" * " ++ String.mk x.2)))
            ++ [line 1 " */"])).length = 3 + (a :: t).length := by
        simp only [List.length_cons, List.length_append, List.length_map,
          List.length_nil]
        omega
      exact List.take_left' hlen

/-- Witness for C8 (amended) on the corpus `{7: "if"}`. -/
theorem header_lists_words_witness :
    ((genMain [(7, ['i', 'f'])]).getD ([], Code.noMatch)).1.take (3 + 1)
      = line 1 "/*"
        :: line 1 (" * Generating switch for the list of "
            ++ toString ([(7, ['i', 'f'])] : List RWord).length ++ " entries:")
        :: ((([(7, ['i', 'f'])] : List RWord).map
              (fun x => line 1 (" * " ++ String.mk x.2)))
          ++ [line 1 " */"]) :=
  header_lists_words (l := [(7, ['i', 'f'])]) (by decide)
    ((genMain [(7, ['i', 'f'])]).getD ([], Code.noMatch)) (by rfl)

/-! ### Claim C4: determinism and input-order (in)dependence -/

/-- C4 counterexample: listing the same two-word corpus in the two possible
orders produces different output — the header comment enumerates the words in
input order. -/
theorem reorder_changes_output :
    genMain [(0, ['i', 'f']), (1, ['i', 'n'])]
      ≠ genMain [(1, ['i', 'n']), (0, ['i', 'f'])] := by
  decide

/-- Sorting the set of distinct elements is invariant under permutation. -/
theorem insertionSort_dedup_perm_eq {α : Type} [LinearOrder α] [DecidableEq α]
    {A B : List α} (h : A.Perm B) :
    List.insertionSort (· ≤ ·) A.dedup = List.insertionSort (· ≤ ·) B.dedup := by
  haveI : IsAntisymm α (· ≤ ·) := ⟨fun a b h1 h2 => le_antisymm h1 h2⟩
  refine List.eq_of_perm_of_sorted (r := (· ≤ ·)) ?_ ?_ ?_
  · exact (List.perm_insertionSort _ _).trans
      (h.dedup.trans (List.perm_insertionSort _ _).symm)
  · exact List.sorted_insertionSort _ _
  · exact List.sorted_insertionSort _ _

/-- `span_and_count_at` only depends on the multiset of candidates. -/
theorem span_and_count_at_perm {l l' : List RWord} (h : l.Perm l') (c : Nat) :
    span_and_count_at l c = span_and_count_at l' c := by
  unfold span_and_count_at
  rw [insertionSort_dedup_perm_eq (h.map _)]

/-- The scanning loop only depends on the multiset of candidates. -/
theorem oscAux_perm (opt : Opt) {l l' : List RWord} (h : l.Perm l')
    (cols : List Nat) :
    ∀ (fuel idx mc ms mci msi : Nat),
      oscAux opt l cols fuel idx mc ms mci msi
        = oscAux opt l' cols fuel idx mc ms mci msi
  | 0, _, _, _, _, _ => rfl
  | fuel + 1, idx, mc, ms, mci, msi => by
    simp only [oscAux, span_and_count_at_perm h]
    split
    · rfl
    · exact oscAux_perm opt h cols fuel _ _ _ _ _

/-- `optimal_switch_column` only depends on the multiset of candidates. -/
theorem optimal_switch_column_perm (opt : Opt) {l l' : List RWord}
    (h : l.Perm l') (cols : List Nat) (u : Nat) :
    optimal_switch_column opt l cols u = optimal_switch_column opt l' cols u :=
  oscAux_perm opt h cols u 0 0 0 0 0

/-- Branch-loop congruence: equal keys and pointwise-equal recursive results
give equal outputs. -/
theorem genLSGroups_congr (recur : List RWord → Option (List String × Code))
    (ui : Bool) (col ind : Nat) :
    ∀ (ks : List Char) (f g : Char → List RWord),
      (∀ c ∈ ks, recur (f c) = recur (g c)) →
      genLSGroups recur ui col ind (ks.map (fun c => (c, f c)))
        = genLSGroups recur ui col ind (ks.map (fun c => (c, g c)))
  | [], _, _ => by
    intro _
    rfl
  | c :: ks, f, g => by
    intro hp
    simp only [List.map_cons, genLSGroups]
    rw [hp c (List.mem_cons_self _ _),
      genLSGroups_congr recur ui col ind ks f g
        (fun c2 hc2 => hp c2 (List.mem_cons_of_mem _ hc2))]

/-- `generate_letter_switch` only depends on the multiset of candidates (the
emitted text and tree are identical for permuted candidate lists). -/
theorem genLS_perm (opt : Opt) :
    ∀ (u ind : Nat) (l l' : List RWord) (cols : List Nat), l.Perm l' →
      generate_letter_switch opt u ind l cols
        = generate_letter_switch opt u ind l' cols
  | 0, ind, l, l', cols => by
    intro h
    match l, l', h with
    | [], l', h =>
      rw [List.nil_perm.1 h]
    | [x], l', h =>
      rw [← List.singleton_perm.1 h]
    | a :: b :: t, l', h =>
      have hlen := h.length_eq
      match l' with
      | [] => simp at hlen
      | [y] => simp at hlen
      | c :: d :: t2 => rfl
  | u + 1, ind, l, l', cols => by
    intro h
    match l, l', h with
    | [], l', h =>
      rw [List.nil_perm.1 h]
    | [x], l', h =>
      rw [← List.singleton_perm.1 h]
    | a :: b :: t, l', h =>
      have hlen := h.length_eq
      match l' with
      | [] => simp at hlen
      | [y] => simp at hlen
      | c :: d :: t2 =>
        have hDne : (if cols.isEmpty then List.range (u + 1) else cols).isEmpty
            = false := by
          cases cols with
          | nil => simp [List.isEmpty_iff, List.range_eq_nil]
          | cons e t3 => rfl
        rw [genLS_eff opt u ind (a :: b :: t) cols,
          genLS_eff opt u ind (c :: d :: t2) cols]
        generalize hgen : (if cols.isEmpty then List.range (u + 1) else cols) = D
          at hDne ⊢
        simp only [generate_letter_switch, hDne, Bool.false_eq_true, if_false]
        rw [optimal_switch_column_perm opt h]
        have hkeys : ∀ (col : Nat),
            List.insertionSort (· ≤ ·)
                (((a :: b :: t).map (fun x => charAt x.2 col)).dedup)
              = List.insertionSort (· ≤ ·)
                (((c :: d :: t2).map (fun x => charAt x.2 col)).dedup) :=
          fun col => insertionSort_dedup_perm_eq (h.map (fun x => charAt x.2 col))
        rcases hoc : D[(optimal_switch_column opt (c :: d :: t2) D (u + 1)).1]?
          with _ | col
        · rfl
        rcases hlc : D[u + 1 - 1]? with _ | lastv
        · rfl
        simp only [Option.bind_eq_bind, Option.some_bind]
        have hsplit : genLSGroups (fun sub => generate_letter_switch opt u (ind + 1)
              sub (D.set (optimal_switch_column opt (c :: d :: t2) D (u + 1)).1 lastv))
            (optimal_switch_column opt (c :: d :: t2) D (u + 1)).2 col ind
            (split_list_per_column (a :: b :: t) col)
          = genLSGroups (fun sub => generate_letter_switch opt u (ind + 1)
              sub (D.set (optimal_switch_column opt (c :: d :: t2) D (u + 1)).1 lastv))
            (optimal_switch_column opt (c :: d :: t2) D (u + 1)).2 col ind
            (split_list_per_column (c :: d :: t2) col) := by
          unfold split_list_per_column
          rw [hkeys col]
          exact genLSGroups_congr _ _ _ _ _ _ _
            (fun ch _ => genLS_perm opt u (ind + 1) _ _ _ (h.filter _))
        rw [hsplit]

/-- Length-loop congruence: equal keys and pointwise-equal bodies give equal
outputs. -/
theorem genSwitchGroups_congr (opt : Opt) (ui : Bool) (ind : Nat) :
    ∀ (ks : List Nat) (f g : Nat → List RWord),
      (∀ n ∈ ks, generate_letter_switch opt n (ind + 1) (f n) []
        = generate_letter_switch opt n (ind + 1) (g n) []) →
      genSwitchGroups opt ui ind (ks.map (fun n => (n, f n)))
        = genSwitchGroups opt ui ind (ks.map (fun n => (n, g n)))
  | [], _, _ => fun _ => rfl
  | n :: ks, f, g => by
    intro hp
    simp only [List.map_cons, genSwitchGroups]
    rw [hp n (List.mem_cons_self _ _),
      genSwitchGroups_congr opt ui ind ks f g
        (fun m hm => hp m (List.mem_cons_of_mem _ hm))]

theorem drop_append_eq {γ : Type} (n : Nat) (L1 L2 R : List γ)
    (h1 : L1.length = n) (h2 : L2.length = n) :
    (L1 ++ R).drop n = (L2 ++ R).drop n := by
  rw [List.drop_left' h1, List.drop_left' h2]

/-- C4 amended: the generator is a pure function (one ordering always gives
byte-identical output), and for permuted input orderings everything after the
header comment — the entire emitted decision procedure and its tree — is
byte-identical; only the header's word enumeration follows the input order. -/
theorem output_perm_invariant_after_header :
    ∀ (l l' : List RWord), l.Perm l' →
      (genMain l).map (fun g => (g.1.drop (3 + l.length), g.2))
        = (genMain l').map (fun g => (g.1.drop (3 + l'.length), g.2)) := by
  intro l l' h
  match l, l', h with
  | [], l', h => rw [List.nil_perm.1 h]
  | a :: t, l', h =>
    have hlen := h.length_eq
    match l' with
    | [] => simp at hlen
    | c :: t2 =>
      have hkeysLen : List.insertionSort (· ≤ ·)
            (((a :: t).map (fun x => x.2.length)).dedup)
          = List.insertionSort (· ≤ ·)
            (((c :: t2).map (fun x => x.2.length)).dedup) :=
        insertionSort_dedup_perm_eq (h.map (fun x => x.2.length))
      have hkl : (split_list_per_length (a :: t)).length
          = (split_list_per_length (c :: t2)).length := by
        unfold split_list_per_length
        rw [List.length_map, List.length_map, hkeysLen]
      have hgroups : genSwitchGroups mainOpt
            (decide ((split_list_per_length (c :: t2)).length
              < mainOpt.use_if_threshold)) 1 (split_list_per_length (a :: t))
          = genSwitchGroups mainOpt
            (decide ((split_list_per_length (c :: t2)).length
              < mainOpt.use_if_threshold)) 1 (split_list_per_length (c :: t2)) := by
        unfold split_list_per_length
        rw [hkeysLen]
        exact genSwitchGroups_congr mainOpt _ 1 _ _ _
          (fun n _ => genLS_perm mainOpt n (1 + 1) _ _ [] (h.filter _))
      simp only [genMain, generate_switch]
      rw [hkl, hlen, hgroups]
      rcases hy : genSwitchGroups mainOpt
          (decide ((split_list_per_length (c :: t2)).length
            < mainOpt.use_if_threshold)) 1 (split_list_per_length (c :: t2))
        with _ | G
      · rfl
      · simp only [Option.map_some']
        refine congrArg some (Prod.ext ?_ rfl)
        refine drop_append_eq _ _ _ _ ?_ ?_
        · have hlen2 : t.length + 1 = t2.length + 1 := by simpa using hlen
          simp only [List.length_cons, List.length_append, List.length_map,
            List.length_nil]
          omega
        · simp only [List.length_cons, List.length_append, List.length_map,
            List.length_nil]
          omega

/-- Witness for C4 (amended) on the two orderings of `{0: "if", 1: "in"}`. -/
theorem output_perm_invariant_after_header_witness :
    (genMain [(0, ['i', 'f']), (1, ['i', 'n'])]).map
        (fun g => (g.1.drop (3 + ([(0, ['i', 'f']), (1, ['i', 'n'])]
          : List RWord).length), g.2))
      = (genMain [(1, ['i', 'n']), (0, ['i', 'f'])]).map
        (fun g => (g.1.drop (3 + ([(1, ['i', 'n']), (0, ['i', 'f'])]
          : List RWord).length), g.2)) :=
  output_perm_invariant_after_header _ _ (by decide)
